import Mathlib

/-!
Verification development for the DocSync backend collaborative-session core.

The definitions below are a shallow embedding of the TypeScript sources:
  - src/services/socketService.ts   (socket event handlers, the wired module)
  - src/services/documentService.ts (checkDocumentAccess, version creation)
  - src/utils/helper.ts             (presence helpers, access checks)
  - src/models/Document.ts          (document schema; currentVersion defaults to 1)
  - src/models/DocumentVersion.ts   (version schema; unique (document, versionNumber) index)
  - src/controllers/documentController.ts (explicit create path)
  - the DocumentService module (createDocument / findOrCreateDocument)

Mongo documents are modelled by a function store from ids to optional
documents plus an append-only list of version records.  JavaScript
truthiness on payload values (the a || b idiom) is modelled by Val.truthy.
-/

namespace DocSync

abbrev UserId := Nat
abbrev DocId := Nat

/-- An opaque JS payload value (Schema.Types.Mixed): a string, an object, or
a null-ish value.  Only truthiness and equality of payloads matter to the
server code. -/
inductive Val where
  | str (s : String)
  | obj (fields : List (String × String))
  | nullv
  deriving DecidableEq, Repr

/-- JS truthiness of a payload: empty string and null are falsy, every
object (including the empty default value) is truthy. -/
def Val.truthy : Val → Bool
  | .str s => !(s == "")
  | .obj _ => true
  | .nullv => false

/-- The JS a || b idiom on payloads. -/
def jsOr (a b : Val) : Val := if a.truthy then a else b

/-- defaultValue = the empty object used for new documents (socketService.ts line 17). -/
def defaultValue : Val := Val.obj []

/-- Executable model of string trim (whitespace stripped from both ends),
used where the source calls trim on titles and contents. -/
def trimChars (l : List Char) : List Char :=
  ((l.dropWhile Char.isWhitespace).reverse.dropWhile Char.isWhitespace).reverse

/-- Model of the trim method on strings. -/
def jsTrim (s : String) : String := ⟨trimChars s.data⟩

/-- Collaborator permission enum of the Document schema. -/
inductive Permission where
  | view
  | edit
  deriving DecidableEq, Repr

/-- One entry of the collaborators array: user id plus permission. -/
structure Collaborator where
  user : UserId
  permission : Permission
  deriving DecidableEq, Repr

/-- The Document model (src/models/Document.ts).  currentVersion has schema
default 1; data defaults to the empty object; timestamps are not modelled. -/
structure Doc where
  title : String
  content : Val
  data : Val
  owner : UserId
  collaborators : List Collaborator
  onlineUsers : List UserId
  currentVersion : Nat
  deriving DecidableEq, Repr

/-- The DocumentVersion model (src/models/DocumentVersion.ts), without the
createdAt timestamp. -/
structure VersionRecord where
  document : DocId
  versionNumber : Nat
  content : Val
  createdBy : UserId
  deriving DecidableEq, Repr

/-- The Mongo document store: documents by id, plus the append-only
DocumentVersion collection. -/
structure Store where
  docs : DocId → Option Doc
  versions : List VersionRecord

/-- Document.findById. -/
def Store.findById (s : Store) (id : DocId) : Option Doc := s.docs id

/-- Document.findByIdAndUpdate with a partial field update: a no-op when the
id is absent. -/
def Store.updateDoc (s : Store) (id : DocId) (f : Doc → Doc) : Store :=
  { s with docs := fun i => if i = id then (s.docs i).map f else s.docs i }

/-- Document.create at a fresh id. -/
def Store.insertDoc (s : Store) (id : DocId) (doc : Doc) : Store :=
  { s with docs := fun i => if i = id then some doc else s.docs i }

/-- DocumentVersion.create under the unique (document, versionNumber)
compound index: the Bool is false (a duplicate-key throw, store unchanged)
when a record with the same composite identity already exists. -/
def createVersion (s : Store) (v : VersionRecord) : Store × Bool :=
  if s.versions.any (fun w => w.document == v.document && w.versionNumber == v.versionNumber)
  then (s, false)
  else ({ s with versions := s.versions ++ [v] }, true)

/-- All version records of one document. -/
def versionsOf (s : Store) (d : DocId) : List VersionRecord :=
  s.versions.filter (fun v => v.document == d)

/-- The version numbers recorded for one document. -/
def versionNumbersOf (s : Store) (d : DocId) : List Nat :=
  (versionsOf s d).map (fun v => v.versionNumber)

/-- Redis cache keys touched by the server: document:{id},
user:{id}:documents, and document:{id}:user:{id}. -/
inductive CacheKey where
  | docKey (d : DocId)
  | userDocs (u : UserId)
  | docUser (d : DocId) (u : UserId)
  deriving DecidableEq, Repr

/-- Destination of an emitted socket event: the sender only, a whole room
(io.to), or a room excluding the sender (socket.to / socket.broadcast.to). -/
inductive Dest where
  | sender
  | roomAll (room : DocId)
  | roomOthers (room : DocId)
  deriving DecidableEq, Repr

/-- Payloads of the outbound socket events. -/
inductive Payload where
  | errorMsg (message : String)
  | loadDocument (data : Val)
  | userJoined (id : UserId) (username : String) (email : String) (onlineUsers : List UserId)
  | receiveChanges (delta : Val)
  | cursorMoved (userId : UserId) (username : String) (position : Val) (timestamp : Nat)
  | userLeft (userId : UserId) (onlineUsers : List UserId)
  deriving DecidableEq, Repr

/-- One emitted socket event. -/
structure Msg where
  dest : Dest
  payload : Payload
  deriving DecidableEq, Repr

/-- A user record as returned by the User model; password is optional so
that a select(-password) projection is representable. -/
structure UserRec where
  id : UserId
  username : String
  email : String
  password : Option String
  deriving DecidableEq, Repr

/-- A socket connection after authentication: the attached user and the set
of joined document rooms (socket.rooms minus the private room). -/
structure Conn where
  user : UserRec
  rooms : List DocId
  deriving DecidableEq, Repr

/-- Mongo addToSet semantics on the onlineUsers array. -/
def jsAddToSet (l : List UserId) (x : UserId) : List UserId :=
  if x ∈ l then l else l ++ [x]

/-- Mongo pull semantics on the onlineUsers array. -/
def jsPullId (l : List UserId) (x : UserId) : List UserId :=
  l.filter (fun y => y != x)

/-- addUserToDocument (src/utils/helper.ts): addToSet the user id into
onlineUsers. -/
def addUserToDocument (s : Store) (documentId : DocId) (userId : UserId) : Store :=
  s.updateDoc documentId (fun d => { d with onlineUsers := jsAddToSet d.onlineUsers userId })

/-- removeUserFromDocument (src/utils/helper.ts): pull the user id from
onlineUsers. -/
def removeUserFromDocument (s : Store) (documentId : DocId) (userId : UserId) : Store :=
  s.updateDoc documentId (fun d => { d with onlineUsers := jsPullId d.onlineUsers userId })

/-- getOnlineUsers (src/utils/helper.ts): the onlineUsers list of the
document, or empty when the document is absent. -/
def getOnlineUsers (s : Store) (documentId : DocId) : List UserId :=
  match s.findById documentId with
  | none => []
  | some document => document.onlineUsers

/-- hasDocumentAccess (src/utils/helper.ts): owner, or any collaborator
entry, grants read access. -/
def hasDocumentAccess (s : Store) (documentId : DocId) (userId : UserId) : Bool :=
  match s.findById documentId with
  | none => false
  | some document =>
    if document.owner == userId then true
    else document.collaborators.any (fun c => c.user == userId)

/-- hasEditPermission (src/utils/helper.ts): owner, or a collaborator entry
whose stored permission is edit. -/
def hasEditPermission (s : Store) (documentId : DocId) (userId : UserId) : Bool :=
  match s.findById documentId with
  | none => false
  | some document =>
    if document.owner == userId then true
    else match document.collaborators.find? (fun c => c.user == userId) with
      | some c => c.permission == Permission.edit
      | none => false

/-- The four-valued permission decision of the design. -/
inductive Decision where
  | owner
  | edit
  | view
  | noAccess
  deriving DecidableEq, Repr

/-- The document-level permission decision implemented by
checkDocumentAccess (src/services/documentService.ts lines 67-79): owner
identity first, then the first matching collaborators entry, else no
access. -/
def decidePermission (document : Doc) (userId : UserId) : Decision :=
  if document.owner == userId then Decision.owner
  else match document.collaborators.find? (fun c => c.user == userId) with
    | some c =>
      match c.permission with
      | Permission.view => Decision.view
      | Permission.edit => Decision.edit
    | none => Decision.noAccess

/-- The inline denial test of the send-changes and save-document handlers
(socketService.ts lines 225-240 and 283-298): not owner, and no
collaborator entry or a non-edit entry. -/
def editDenied (document : Doc) (userId : UserId) : Bool :=
  let isOwner := document.owner == userId
  let collaborator := document.collaborators.find? (fun c => c.user == userId)
  !isOwner && (match collaborator with
    | none => true
    | some c => c.permission != Permission.edit)

/-- Result shape of checkDocumentAccess. -/
structure AccessResult where
  hasAccess : Bool
  permission : Option Decision
  message : Option String
  deriving DecidableEq, Repr

/-- checkDocumentAccess (src/services/documentService.ts lines 56-84). -/
def checkDocumentAccess (s : Store) (documentId : DocId) (userId : UserId) : AccessResult :=
  match s.findById documentId with
  | none => ⟨false, none, some "Document not found"⟩
  | some document =>
    if document.owner == userId then ⟨true, some Decision.owner, none⟩
    else match document.collaborators.find? (fun c => c.user == userId) with
      | none => ⟨false, none, some "Access denied"⟩
      | some c =>
        ⟨true,
         some (match c.permission with
               | Permission.view => Decision.view
               | Permission.edit => Decision.edit),
         none⟩

/-- saveDocumentVersion (socketService.ts lines 46-79): read the document,
set currentVersion to its successor, create the version record (content is
data || content of the read document), then invalidate the two Redis keys.
Over Nat, the source's (currentVersion || 0) + 1 equals currentVersion + 1.
A duplicate-key throw is caught inside the helper, so the cache deletions
are skipped and no record is created. -/
def saveDocumentVersion (s : Store) (documentId : DocId) (userId : UserId) :
    Store × List CacheKey :=
  match s.findById documentId with
  | none => (s, [])
  | some document =>
    let newVersionNumber := document.currentVersion + 1
    let s1 := s.updateDoc documentId (fun d => { d with currentVersion := newVersionNumber })
    let t := createVersion s1 ⟨documentId, newVersionNumber, jsOr document.data document.content, userId⟩
    if t.2 then (t.1, [CacheKey.docKey documentId, CacheKey.userDocs userId]) else (t.1, [])

/-- Output of one socket event handler: the resulting store, the emitted
events in order, and the Redis keys deleted. -/
structure HOut where
  store : Store
  emits : List Msg
  dels : List CacheKey

/-- Shared tail of the get-document handler (socketService.ts lines
160-188): join the room, addToSet presence, read the online list, snapshot
when more than one user is online, then emit load-document to the sender
and user-joined to the whole room. -/
def joinDocumentRoom (s : Store) (conn : Conn) (documentId : DocId) (document : Doc)
    (dels0 : List CacheKey) : Conn × HOut :=
  let user := conn.user
  let conn1 : Conn :=
    { conn with rooms := if documentId ∈ conn.rooms then conn.rooms else conn.rooms ++ [documentId] }
  let s1 := addUserToDocument s documentId user.id
  let onlineUsers := getOnlineUsers s1 documentId
  let sd := if onlineUsers.length > 1 then saveDocumentVersion s1 documentId user.id else (s1, [])
  let documentData := jsOr document.data defaultValue
  (conn1,
   ⟨sd.1,
    [⟨Dest.sender, Payload.loadDocument documentData⟩,
     ⟨Dest.roomAll documentId, Payload.userJoined user.id user.username user.email onlineUsers⟩],
    dels0 ++ sd.2⟩)

/-- The get-document handler (socketService.ts lines 121-210).  An existing
document is access-checked; an absent one is created with empty content,
the requester as owner, no collaborators (currentVersion takes its schema
default 1) and a first version record numbered 1, and the requester's
document-list cache key is deleted. -/
def getDocumentHandler (s : Store) (conn : Conn) (documentId : DocId) : Conn × HOut :=
  let user := conn.user
  match s.findById documentId with
  | some document =>
    if hasDocumentAccess s documentId user.id then
      joinDocumentRoom s conn documentId document []
    else
      (conn, ⟨s, [⟨Dest.sender, Payload.errorMsg "Access denied"⟩], []⟩)
  | none =>
    let document : Doc :=
      { title := "Untitled Document", content := Val.str "", data := defaultValue,
        owner := user.id, collaborators := [], onlineUsers := [], currentVersion := 1 }
    let s1 := s.insertDoc documentId document
    let t := createVersion s1 ⟨documentId, 1, Val.str "", user.id⟩
    if t.2 then joinDocumentRoom t.1 conn documentId document [CacheKey.userDocs user.id]
    else (conn, ⟨t.1, [⟨Dest.sender, Payload.errorMsg "Failed to load document"⟩], []⟩)

/-- Loop body of the send-changes handler (socketService.ts lines 213-253):
per room, re-read the document, deny with a scoped error, or relay the
delta to the other room members.  No store mutation happens on any path. -/
def sendChangesLoop (u : UserRec) (delta : Val) (s : Store) : List DocId → List Msg
  | [] => []
  | documentId :: rest =>
    match s.findById documentId with
    | none => sendChangesLoop u delta s rest
    | some document =>
      if editDenied document u.id then
        ⟨Dest.sender, Payload.errorMsg "You do not have permission to edit this document"⟩ ::
          sendChangesLoop u delta s rest
      else
        ⟨Dest.roomOthers documentId, Payload.receiveChanges delta⟩ ::
          sendChangesLoop u delta s rest

/-- The send-changes handler. -/
def sendChangesHandler (s : Store) (conn : Conn) (delta : Val) : HOut :=
  ⟨s, sendChangesLoop conn.user delta s conn.rooms, []⟩

/-- The cursor-position handler (socketService.ts lines 256-266): an
unconditional relay to the room excluding the sender, stamped with the
sender identity and a server timestamp; no document lookup, no permission
check, no membership check, no store mutation. -/
def cursorPositionHandler (s : Store) (conn : Conn) (documentId : DocId) (position : Val)
    (now : Nat) : HOut :=
  ⟨s, [⟨Dest.roomOthers documentId,
        Payload.cursorMoved conn.user.id conn.user.username position now⟩], []⟩

/-- The write phase of one save-document room iteration (socketService.ts
lines 300-318), applied to a previously read document value: set data,
content and currentVersion, then create the version record (content is
data || the read content).  The Bool reports whether the record creation
succeeded; a false means the duplicate-key throw. -/
def saveWrite (s : Store) (documentId : DocId) (userId : UserId) (data : Val)
    (document : Doc) : Store × Bool :=
  let newVersionNumber := document.currentVersion + 1
  let s1 := s.updateDoc documentId
    (fun d => { d with data := data, content := data, currentVersion := newVersionNumber })
  createVersion s1 ⟨documentId, newVersionNumber, jsOr data document.content, userId⟩

/-- Result of one save-document room iteration; continueLoop is false when
the iteration threw to the handler-level catch, aborting the loop. -/
structure RoomStepOut where
  store : Store
  emits : List Msg
  dels : List CacheKey
  continueLoop : Bool

/-- One save-document room iteration after the document read
(socketService.ts lines 283-326): deny with a scoped error and continue,
or write and invalidate the document key and the sender's list key; a
duplicate-key throw escapes to the handler catch, which emits the generic
failure error and processes no further room. -/
def saveRoomStep (u : UserRec) (data : Val) (s : Store) (document : Doc)
    (documentId : DocId) : RoomStepOut :=
  if editDenied document u.id then
    ⟨s, [⟨Dest.sender, Payload.errorMsg "You do not have permission to save this document"⟩],
     [], true⟩
  else
    let sw := saveWrite s documentId u.id data document
    if sw.2 then
      ⟨sw.1, [], [CacheKey.docKey documentId, CacheKey.userDocs u.id], true⟩
    else
      ⟨sw.1, [⟨Dest.sender, Payload.errorMsg "Failed to save document"⟩], [], false⟩

/-- Loop of the save-document handler (socketService.ts lines 269-332) over
the connection's rooms; each iteration re-reads its document from the
current store. -/
def saveDocumentLoop (u : UserRec) (data : Val) : List DocId → Store → HOut
  | [], s => ⟨s, [], []⟩
  | documentId :: rest, s =>
    match s.findById documentId with
    | none => saveDocumentLoop u data rest s
    | some document =>
      let st := saveRoomStep u data s document documentId
      if st.continueLoop then
        let r := saveDocumentLoop u data rest st.store
        ⟨r.store, st.emits ++ r.emits, st.dels ++ r.dels⟩
      else
        ⟨st.store, st.emits, st.dels⟩

/-- The save-document handler. -/
def saveDocumentHandler (s : Store) (conn : Conn) (data : Val) : HOut :=
  saveDocumentLoop conn.user data conn.rooms s

/-- Loop of the disconnect handler (socketService.ts lines 334-366): per
room, read the online list before removal, pull the user, re-read the list,
snapshot when the pre-removal count exceeded 1 and the post-removal count
is positive, and always emit user-left with the post-removal list to the
whole room. -/
def disconnectLoop (u : UserRec) : List DocId → Store → HOut
  | [], s => ⟨s, [], []⟩
  | documentId :: rest, s =>
    let onlineUsersBefore := getOnlineUsers s documentId
    let s1 := removeUserFromDocument s documentId u.id
    let onlineUsersAfter := getOnlineUsers s1 documentId
    let sd :=
      if onlineUsersBefore.length > 1 && onlineUsersAfter.length > 0 then
        saveDocumentVersion s1 documentId u.id
      else (s1, [])
    let r := disconnectLoop u rest sd.1
    ⟨r.store, ⟨Dest.roomAll documentId, Payload.userLeft u.id onlineUsersAfter⟩ :: r.emits,
     sd.2 ++ r.dels⟩

/-- The disconnect handler; the session's room set is destroyed. -/
def disconnectHandler (s : Store) (conn : Conn) : Conn × HOut :=
  ({ conn with rooms := [] }, disconnectLoop conn.user conn.rooms s)

/-- DocumentService.createDocument: validate the title, fall back to a
single-space placeholder for an empty content, create the document
(currentVersion takes its schema default 1), and create the first version
record unless generateVersion is explicitly false. -/
def svcCreateDocument (s : Store) (newId : DocId) (title content : String) (owner : UserId)
    (generateVersion : Option Bool) : Option (Store × Doc) :=
  if jsTrim title == "" then none
  else
    let documentContent := if !(jsTrim content == "") then content else " "
    let document : Doc :=
      { title := jsTrim title, content := Val.str documentContent, data := defaultValue,
        owner := owner, collaborators := [], onlineUsers := [], currentVersion := 1 }
    let s1 := s.insertDoc newId document
    if generateVersion != some false then
      let t := createVersion s1 ⟨newId, 1, Val.str documentContent, owner⟩
      if t.2 then some (t.1, document) else none
    else some (s1, document)

/-- DocumentService.findOrCreateDocument: return the document when present,
else create one through svcCreateDocument with generateVersion false (the
comment: skip version for socket-created docs).  The creation call does not
pass the requested id, so Mongo generates a fresh one, modelled by the
freshId parameter. -/
def findOrCreateDocument (s : Store) (id : Option DocId) (userId : UserId) (freshId : DocId) :
    Store × Option Doc :=
  match id with
  | none => (s, none)
  | some docId =>
    match s.findById docId with
    | some document => (s, some document)
    | none =>
      match svcCreateDocument s freshId "Untitled Document" "" userId (some false) with
      | some p => (p.1, some p.2)
      | none => (s, none)

/-- The explicit create path (documentController.ts createDocument):
validate the title, fall back to a single-space placeholder for an empty
content, create the document and always create the first version record
numbered 1. -/
def createDocumentCtrl (s : Store) (newId : DocId) (userId : UserId) (title content : String) :
    Option Store :=
  if jsTrim title == "" then none
  else
    let documentContent := if !(jsTrim content == "") then content else " "
    let document : Doc :=
      { title := jsTrim title, content := Val.str documentContent, data := defaultValue,
        owner := userId, collaborators := [], onlineUsers := [], currentVersion := 1 }
    let s1 := s.insertDoc newId document
    let t := createVersion s1 ⟨newId, 1, Val.str documentContent, userId⟩
    if t.2 then some t.1 else none

/-- A bearer token abstracted by its verification outcome: a token is valid
with an embedded subject, or malformed, or expired. -/
inductive Token where
  | valid (subject : UserId)
  | malformed
  | expired
  deriving DecidableEq, Repr

/-- jwt.verify: yields the embedded subject for a valid token and throws
(modelled as none) on a malformed or expired one. -/
def jwtVerify : Token → Option UserId
  | Token.valid subject => some subject
  | Token.malformed => none
  | Token.expired => none

/-- User.findById over the user collection. -/
def findUserById (users : List UserRec) (id : UserId) : Option UserRec :=
  users.find? (fun u => u.id == id)

/-- authenticateSocket (socketService.ts lines 20-43): no token, a verify
throw, or a missing user all yield null; on success the user record is
returned with the password field stripped by select(-password). -/
def authenticateSocket (users : List UserRec) (token : Option Token) : Option UserRec :=
  match token with
  | none => none
  | some t =>
    match jwtVerify t with
    | none => none
    | some id =>
      match findUserById users id with
      | none => none
      | some u => some { u with password := none }

/-- The three places a connecting handshake may carry a token. -/
structure Handshake where
  authToken : Option Token
  queryToken : Option Token
  headerToken : Option Token
  deriving DecidableEq, Repr

/-- Token extraction of the io.use middleware (socketService.ts lines
86-91): auth payload, else query parameter, else authorization header. -/
def extractToken (h : Handshake) : Option Token :=
  match h.authToken with
  | some t => some t
  | none =>
    match h.queryToken with
    | some t => some t
    | none => h.headerToken

/-- The io.use middleware (socketService.ts lines 83-114): reject with an
authentication error on a missing token or a failed authentication, else
pass the resolved user on. -/
def socketAuthMiddleware (users : List UserRec) (h : Handshake) : Except String UserRec :=
  match extractToken h with
  | none => Except.error "Authentication error: Missing token"
  | some t =>
    match authenticateSocket users (some t) with
    | none => Except.error "Authentication error: Invalid token"
    | some user => Except.ok user

/-- Connection establishment: a session (with an empty room set) exists
exactly when the middleware accepted; a rejected handshake produces no
session state at all, so no room join is possible. -/
def establishConnection (users : List UserRec) (h : Handshake) : Option Conn :=
  match socketAuthMiddleware users h with
  | Except.error _ => none
  | Except.ok user => some ⟨user, []⟩

/-- Stated from the claim's words, for comparison with the code: the
handshake is rejected exactly when the token is missing, malformed,
expired, or its embedded subject resolves to no existing user. -/
def authRejectSpec (users : List UserRec) (h : Handshake) : Prop :=
  match extractToken h with
  | none => True
  | some Token.malformed => True
  | some Token.expired => True
  | some (Token.valid subject) => findUserById users subject = none

/-- Per-document version bookkeeping: the recorded version numbers count up
to currentVersion, are duplicate-free, and lie in [1, currentVersion].
Together these force the numbers to be exactly that contiguous range. -/
def docVersionOk (s : Store) (d : DocId) (doc : Doc) : Prop :=
  (versionNumbersOf s d).length = doc.currentVersion ∧
  (versionNumbersOf s d).Nodup ∧
  ∀ n ∈ versionNumbersOf s d, 1 ≤ n ∧ n ≤ doc.currentVersion

instance (s : Store) (d : DocId) (doc : Doc) : Decidable (docVersionOk s d doc) := by
  unfold docVersionOk; infer_instance

/-- The global version invariant: every stored document satisfies its
version bookkeeping, and every version record belongs to a stored
document. -/
def versionInvariant (s : Store) : Prop :=
  (∀ d doc, s.findById d = some doc → docVersionOk s d doc) ∧
  (∀ v ∈ s.versions, s.findById v.document ≠ none)

/-- A store with no documents and no versions. -/
def emptyStore : Store := ⟨fun _ => none, []⟩

/-- Concrete document used to instantiate theorems: owned by user 9, with a
view collaborator 3 and an edit collaborator 4; users 9 and 3 online; one
version recorded. -/
def wDoc : Doc :=
  ⟨"T", Val.str "h", Val.str "h", 9, [⟨3, Permission.view⟩, ⟨4, Permission.edit⟩], [9, 3], 1⟩

/-- Concrete store holding wDoc at id 0 together with its single version
record. -/
def wStore : Store := ⟨fun i => if i = 0 then some wDoc else none, [⟨0, 1, Val.str "h", 9⟩]⟩

/-- The view-only collaborator of wDoc, connected and joined to room 0. -/
def wConnView : Conn := ⟨⟨3, "carol", "c@x", none⟩, [0]⟩

/-- The edit collaborator of wDoc, connected and joined to room 0. -/
def wConnEdit : Conn := ⟨⟨4, "dave", "d@x", none⟩, [0]⟩

/-- A connection of user 7 that has joined no room yet. -/
def freshConn : Conn := ⟨⟨7, "alice", "a@x", none⟩, []⟩

/-- Document owned by user 7 who is also its only online user (the same
user connected from another tab). -/
def rjDoc : Doc := ⟨"T", Val.str "h", Val.str "h", 7, [], [7], 1⟩

/-- Store holding rjDoc at id 0 with its single version record. -/
def rjStore : Store := ⟨fun i => if i = 0 then some rjDoc else none, [⟨0, 1, Val.str "h", 7⟩]⟩

/-- Document at currentVersion 1 owned by user 1 with edit collaborator 2,
used for the concurrent-save interleaving. -/
def raceDoc : Doc := ⟨"T", Val.str "h", Val.str "h", 1, [⟨2, Permission.edit⟩], [1, 2], 1⟩

/-- Store holding raceDoc at id 0 with its single version record. -/
def raceStore : Store := ⟨fun i => if i = 0 then some raceDoc else none, [⟨0, 1, Val.str "h", 1⟩]⟩

/-- The user record of the second concurrent saver. -/
def raceUserB : UserRec := ⟨2, "bob", "b@x", none⟩

theorem findById_updateDoc (s : Store) (id id' : DocId) (f : Doc → Doc) :
    (s.updateDoc id f).findById id' =
      if id' = id then (s.findById id').map f else s.findById id' := rfl

theorem findById_insertDoc (s : Store) (id id' : DocId) (doc : Doc) :
    (s.insertDoc id doc).findById id' = if id' = id then some doc else s.findById id' := rfl

theorem versionsOf_updateDoc (s : Store) (id : DocId) (f : Doc → Doc) (d : DocId) :
    versionsOf (s.updateDoc id f) d = versionsOf s d := rfl

theorem versionsOf_insertDoc (s : Store) (id : DocId) (doc : Doc) (d : DocId) :
    versionsOf (s.insertDoc id doc) d = versionsOf s d := rfl

theorem versionsOf_append (s : Store) (v : VersionRecord) (d : DocId) :
    versionsOf { s with versions := s.versions ++ [v] } d =
      versionsOf s d ++ if v.document == d then [v] else [] := by
  simp only [versionsOf, List.filter_append, List.filter]
  cases v.document == d <;> rfl

theorem versionNumbersOf_congr {s s' : Store} {d : DocId}
    (h : versionsOf s d = versionsOf s' d) : versionNumbersOf s d = versionNumbersOf s' d := by
  simp only [versionNumbersOf, h]

theorem createVersion_fst_docs (s : Store) (v : VersionRecord) :
    (createVersion s v).1.docs = s.docs := by
  unfold createVersion
  split <;> rfl

theorem createVersion_frame (s : Store) (v : VersionRecord) (D : DocId)
    (hne : v.document ≠ D) :
    (createVersion s v).1.findById D = s.findById D ∧
    versionsOf (createVersion s v).1 D = versionsOf s D := by
  unfold createVersion
  split
  · exact ⟨rfl, rfl⟩
  · refine ⟨rfl, ?_⟩
    rw [versionsOf_append, if_neg (by simpa using hne), List.append_nil]

theorem createVersion_of_not_mem {s : Store} {v : VersionRecord}
    (h : ∀ w ∈ s.versions, w.document = v.document → w.versionNumber ≠ v.versionNumber) :
    createVersion s v = ({ s with versions := s.versions ++ [v] }, true) := by
  unfold createVersion
  rw [if_neg]
  intro hc
  rw [List.any_eq_true] at hc
  obtain ⟨w, hw, hp⟩ := hc
  rw [Bool.and_eq_true, beq_iff_eq, beq_iff_eq] at hp
  exact h w hw hp.1 hp.2

theorem mem_versionNumbersOf {s : Store} {d : DocId} {w : VersionRecord}
    (hw : w ∈ s.versions) (hd : w.document = d) :
    w.versionNumber ∈ versionNumbersOf s d := by
  simp only [versionNumbersOf, versionsOf, List.mem_map, List.mem_filter]
  exact ⟨w, ⟨hw, by simp [hd]⟩, rfl⟩

theorem docVersionOk_mem_iff {s : Store} {d : DocId} {doc : Doc} (h : docVersionOk s d doc) :
    ∀ n, n ∈ versionNumbersOf s d ↔ 1 ≤ n ∧ n ≤ doc.currentVersion := by
  obtain ⟨hlen, hnd, hmem⟩ := h
  intro n
  constructor
  · exact hmem n
  · intro hn
    by_contra hab
    have hsub : (versionNumbersOf s d).toFinset ⊆ Finset.Icc 1 doc.currentVersion := by
      intro m hm
      rw [List.mem_toFinset] at hm
      exact Finset.mem_Icc.mpr (hmem m hm)
    have hcard : (Finset.Icc 1 doc.currentVersion).card ≤ (versionNumbersOf s d).toFinset.card := by
      rw [List.toFinset_card_of_nodup hnd, hlen, Nat.card_Icc]
      omega
    have heq := Finset.eq_of_subset_of_card_le hsub hcard
    have hmem2 : n ∈ (versionNumbersOf s d).toFinset := by
      rw [heq]; exact Finset.mem_Icc.mpr hn
    exact hab (List.mem_toFinset.mp hmem2)

theorem versionsOf_eq_nil_of_absent {s : Store} {d : DocId}
    (hinv : versionInvariant s) (habs : s.findById d = none) :
    versionsOf s d = [] := by
  rw [versionsOf, List.filter_eq_nil_iff]
  intro v hv
  intro hbeq
  rw [beq_iff_eq] at hbeq
  exact hinv.2 v hv (by rw [← hbeq] at habs; exact habs)

/-- Core step: updating the document at d with a function that bumps the
read document's currentVersion by one and then appending the matching
version record succeeds and preserves the version invariant. -/
theorem snapshotStep (s : Store) (d : DocId) (doc : Doc) (f : Doc → Doc) (c : Val) (u : UserId)
    (hdoc : s.findById d = some doc)
    (hcv : (f doc).currentVersion = doc.currentVersion + 1)
    (hinv : versionInvariant s) :
    createVersion (s.updateDoc d f) ⟨d, doc.currentVersion + 1, c, u⟩ =
      ({ s.updateDoc d f with versions := s.versions ++ [⟨d, doc.currentVersion + 1, c, u⟩] },
       true) ∧
    versionInvariant
      { s.updateDoc d f with versions := s.versions ++ [⟨d, doc.currentVersion + 1, c, u⟩] } ∧
    ({ s.updateDoc d f with
        versions := s.versions ++ [⟨d, doc.currentVersion + 1, c, u⟩] } : Store).findById d
      = some (f doc) ∧
    (∀ d', d' ≠ d →
      ({ s.updateDoc d f with
          versions := s.versions ++ [⟨d, doc.currentVersion + 1, c, u⟩] } : Store).findById d'
        = s.findById d') ∧
    versionsOf
      { s.updateDoc d f with versions := s.versions ++ [⟨d, doc.currentVersion + 1, c, u⟩] } d
      = versionsOf s d ++ [⟨d, doc.currentVersion + 1, c, u⟩] ∧
    (∀ d', d' ≠ d →
      versionsOf
        { s.updateDoc d f with versions := s.versions ++ [⟨d, doc.currentVersion + 1, c, u⟩] } d'
        = versionsOf s d') := by
  obtain ⟨hok, horph⟩ := hinv
  have hok0 := hok d doc hdoc
  obtain ⟨hlen, hnd, hbounds⟩ := hok0
  have hupd : (s.updateDoc d f).versions = s.versions := rfl
  -- the new record's number exceeds every recorded number for d
  have hnotmem : ∀ w ∈ s.versions, w.document = d → w.versionNumber ≠ doc.currentVersion + 1 := by
    intro w hw hwd hwn
    have := hbounds w.versionNumber (mem_versionNumbersOf hw hwd)
    omega
  have hcreate :
      createVersion (s.updateDoc d f) ⟨d, doc.currentVersion + 1, c, u⟩ =
        ({ s.updateDoc d f with
           versions := s.versions ++ [⟨d, doc.currentVersion + 1, c, u⟩] }, true) := by
    exact createVersion_of_not_mem (by simpa [hupd] using hnotmem)
  -- names for the result
  have hfind : ∀ d', ({ s.updateDoc d f with
      versions := s.versions ++ [⟨d, doc.currentVersion + 1, c, u⟩] } : Store).findById d'
      = if d' = d then (s.findById d').map f else s.findById d' := fun _ => rfl
  have hvers : ∀ d', versionsOf
      { s.updateDoc d f with versions := s.versions ++ [⟨d, doc.currentVersion + 1, c, u⟩] } d'
      = versionsOf s d' ++ if d == d' then [⟨d, doc.currentVersion + 1, c, u⟩] else [] := by
    intro d'
    have : versionsOf
        { s.updateDoc d f with versions := s.versions ++ [⟨d, doc.currentVersion + 1, c, u⟩] } d'
        = versionsOf { s with versions := s.versions ++ [⟨d, doc.currentVersion + 1, c, u⟩] } d' := rfl
    rw [this, versionsOf_append]
  refine ⟨hcreate, ?_, ?_, ?_, ?_, ?_⟩
  · constructor
    · intro d' doc' h'
      rw [hfind d'] at h'
      by_cases hdd : d' = d
      · subst hdd
        rw [hdoc] at h'
        simp only [Option.map_some] at h'
        cases h'
        have hnums : versionNumbersOf
            { s.updateDoc d' f with
              versions := s.versions ++ [⟨d', doc.currentVersion + 1, c, u⟩] } d'
            = versionNumbersOf s d' ++ [doc.currentVersion + 1] := by
          simp only [versionNumbersOf, hvers d', beq_self_eq_true, if_pos, List.map_append]
          rfl
        refine ⟨?_, ?_, ?_⟩
        · rw [hnums, List.length_append, hlen, hcv]; rfl
        · rw [hnums]
          apply List.Nodup.append hnd (List.nodup_singleton _)
          intro a ha hb
          rw [List.mem_singleton] at hb
          subst hb
          have := hbounds _ ha
          omega
        · intro n hn
          rw [hnums, List.mem_append, List.mem_singleton] at hn
          rw [hcv]
          rcases hn with hn | hn
          · have := hbounds n hn; omega
          · omega
      · rw [if_neg hdd] at h'
        have hvd' : versionsOf
            { s.updateDoc d f with
              versions := s.versions ++ [⟨d, doc.currentVersion + 1, c, u⟩] } d'
            = versionsOf s d' := by
          rw [hvers d', if_neg (by simpa using Ne.symm hdd), List.append_nil]
        have hok' := hok d' doc' h'
        refine ⟨?_, ?_, ?_⟩
        · rw [versionNumbersOf_congr hvd']; exact hok'.1
        · rw [versionNumbersOf_congr hvd']; exact hok'.2.1
        · rw [versionNumbersOf_congr hvd']; exact hok'.2.2
    · intro v hv
      rw [List.mem_append, List.mem_singleton] at hv
      rcases hv with hv | hv
      · rw [hfind]
        by_cases hdd : v.document = d
        · rw [if_pos hdd, hdd, hdoc]; simp
        · rw [if_neg hdd]; exact horph v hv
      · subst hv
        rw [hfind]
        simp only [if_pos rfl, hdoc]
        simp
  · rw [hfind, if_pos rfl, hdoc]; rfl
  · intro d' hdd
    rw [hfind, if_neg hdd]
  · rw [hvers, if_pos (beq_self_eq_true d ▸ rfl)]
  · intro d' hdd
    rw [hvers, if_neg (by simpa using Ne.symm hdd), List.append_nil]

theorem versionNumbersOf_updateDoc (s : Store) (id : DocId) (f : Doc → Doc) (d : DocId) :
    versionNumbersOf (s.updateDoc id f) d = versionNumbersOf s d := rfl

/-- An update that does not change currentVersion preserves the version
invariant. -/
theorem updateDoc_preserves_inv (s : Store) (d : DocId) (f : Doc → Doc)
    (hcv : ∀ x, (f x).currentVersion = x.currentVersion)
    (hinv : versionInvariant s) : versionInvariant (s.updateDoc d f) := by
  obtain ⟨hok, horph⟩ := hinv
  constructor
  · intro d' doc' h'
    rw [findById_updateDoc] at h'
    by_cases hdd : d' = d
    · rw [if_pos hdd] at h'
      obtain ⟨x, hx, hfx⟩ := Option.map_eq_some'.mp h'
      have hok' := hok d' x hx
      refine ⟨?_, ?_, ?_⟩
      · rw [versionNumbersOf_updateDoc, ← hfx, hcv]; exact hok'.1
      · rw [versionNumbersOf_updateDoc]; exact hok'.2.1
      · rw [versionNumbersOf_updateDoc, ← hfx, hcv]; exact hok'.2.2
    · rw [if_neg hdd] at h'
      have hok' := hok d' doc' h'
      exact ⟨hok'.1, hok'.2.1, hok'.2.2⟩
  · intro v hv
    have := horph v hv
    rw [findById_updateDoc]
    by_cases hdd : v.document = d
    · rw [if_pos hdd]
      intro hcontra
      exact this (Option.map_eq_none'.mp hcontra)
    · rw [if_neg hdd]
      exact this

/-- Full description of a successful saveDocumentVersion on an existing
document in an invariant-satisfying store. -/
theorem saveDocumentVersion_spec (s : Store) (d : DocId) (u : UserId) (doc : Doc)
    (hdoc : s.findById d = some doc) (hinv : versionInvariant s) :
    (saveDocumentVersion s d u).1.findById d =
      some { doc with currentVersion := doc.currentVersion + 1 } ∧
    (∀ d', d' ≠ d → (saveDocumentVersion s d u).1.findById d' = s.findById d') ∧
    versionsOf (saveDocumentVersion s d u).1 d =
      versionsOf s d ++ [⟨d, doc.currentVersion + 1, jsOr doc.data doc.content, u⟩] ∧
    (∀ d', d' ≠ d → versionsOf (saveDocumentVersion s d u).1 d' = versionsOf s d') ∧
    versionInvariant (saveDocumentVersion s d u).1 ∧
    (saveDocumentVersion s d u).2 = [CacheKey.docKey d, CacheKey.userDocs u] := by
  obtain ⟨hcreate, hinv2, hfound, hframe, hvers, hversframe⟩ :=
    snapshotStep s d doc (fun x => { x with currentVersion := doc.currentVersion + 1 })
      (jsOr doc.data doc.content) u hdoc rfl hinv
  have hred : saveDocumentVersion s d u =
      ({ s.updateDoc d (fun x => { x with currentVersion := doc.currentVersion + 1 }) with
         versions := s.versions ++
           [⟨d, doc.currentVersion + 1, jsOr doc.data doc.content, u⟩] },
       [CacheKey.docKey d, CacheKey.userDocs u]) := by
    unfold saveDocumentVersion
    rw [hdoc]
    simp only [hcreate]
    rw [if_pos trivial]
  rw [hred]
  exact ⟨hfound, fun d' h => hframe d' h, hvers, fun d' h => hversframe d' h, hinv2, rfl⟩

/-- saveDocumentVersion preserves the version invariant on any store. -/
theorem saveDocumentVersion_preserves (s : Store) (d : DocId) (u : UserId)
    (hinv : versionInvariant s) : versionInvariant (saveDocumentVersion s d u).1 := by
  cases hdoc : s.findById d with
  | none =>
    have : saveDocumentVersion s d u = (s, []) := by
      unfold saveDocumentVersion; rw [hdoc]
    rw [this]; exact hinv
  | some doc =>
    exact (saveDocumentVersion_spec s d u doc hdoc hinv).2.2.2.2.1

/-- saveDocumentVersion never touches any other document. -/
theorem saveDocumentVersion_frame (s : Store) (d : DocId) (u : UserId) (D : DocId)
    (hne : D ≠ d) :
    (saveDocumentVersion s d u).1.findById D = s.findById D ∧
    versionsOf (saveDocumentVersion s d u).1 D = versionsOf s D := by
  cases hdoc : s.findById d with
  | none =>
    have : saveDocumentVersion s d u = (s, []) := by
      unfold saveDocumentVersion; rw [hdoc]
    rw [this]; exact ⟨rfl, rfl⟩
  | some doc =>
    have hred : (saveDocumentVersion s d u).1 =
        (createVersion
          (s.updateDoc d (fun x => { x with currentVersion := doc.currentVersion + 1 }))
          ⟨d, doc.currentVersion + 1, jsOr doc.data doc.content, u⟩).1 := by
      unfold saveDocumentVersion
      rw [hdoc]
      by_cases ht : (createVersion
          (s.updateDoc d (fun x => { x with currentVersion := doc.currentVersion + 1 }))
          ⟨d, doc.currentVersion + 1, jsOr doc.data doc.content, u⟩).2 = true
      · simp only [ht, if_pos]
      · simp only [Bool.not_eq_true] at ht
        simp only [ht]
        rfl
    rw [hred]
    have hcf := createVersion_frame
      (s.updateDoc d (fun x => { x with currentVersion := doc.currentVersion + 1 }))
      ⟨d, doc.currentVersion + 1, jsOr doc.data doc.content, u⟩ D (by simpa using hne.symm)
    refine ⟨?_, ?_⟩
    · rw [hcf.1, findById_updateDoc, if_neg hne]
    · rw [hcf.2, versionsOf_updateDoc]

/-- Full description of a successful saveWrite on an existing document in
an invariant-satisfying store. -/
theorem saveWrite_spec (s : Store) (d : DocId) (uid : UserId) (data : Val) (doc : Doc)
    (hdoc : s.findById d = some doc) (hinv : versionInvariant s) :
    (saveWrite s d uid data doc).2 = true ∧
    (saveWrite s d uid data doc).1.findById d =
      some { doc with data := data, content := data, currentVersion := doc.currentVersion + 1 } ∧
    (∀ d', d' ≠ d → (saveWrite s d uid data doc).1.findById d' = s.findById d') ∧
    versionsOf (saveWrite s d uid data doc).1 d =
      versionsOf s d ++ [⟨d, doc.currentVersion + 1, jsOr data doc.content, uid⟩] ∧
    (∀ d', d' ≠ d → versionsOf (saveWrite s d uid data doc).1 d' = versionsOf s d') ∧
    versionInvariant (saveWrite s d uid data doc).1 := by
  obtain ⟨hcreate, hinv2, hfound, hframe, hvers, hversframe⟩ :=
    snapshotStep s d doc
      (fun x => { x with data := data, content := data, currentVersion := doc.currentVersion + 1 })
      (jsOr data doc.content) uid hdoc rfl hinv
  have hred : saveWrite s d uid data doc =
      ({ s.updateDoc d (fun x =>
           { x with data := data, content := data, currentVersion := doc.currentVersion + 1 }) with
         versions := s.versions ++ [⟨d, doc.currentVersion + 1, jsOr data doc.content, uid⟩] },
       true) := by
    unfold saveWrite
    exact hcreate
  rw [hred]
  exact ⟨rfl, hfound, fun d' h => hframe d' h, hvers, fun d' h => hversframe d' h, hinv2⟩

/-- saveWrite never touches any other document, whether or not the record
creation succeeds. -/
theorem saveWrite_frame (s : Store) (d : DocId) (uid : UserId) (data : Val) (doc : Doc)
    (D : DocId) (hne : D ≠ d) :
    (saveWrite s d uid data doc).1.findById D = s.findById D ∧
    versionsOf (saveWrite s d uid data doc).1 D = versionsOf s D := by
  unfold saveWrite
  have hcf := createVersion_frame
    (s.updateDoc d (fun x =>
      { x with data := data, content := data, currentVersion := doc.currentVersion + 1 }))
    ⟨d, doc.currentVersion + 1, jsOr data doc.content, uid⟩ D (by simpa using hne.symm)
  refine ⟨?_, ?_⟩
  · rw [hcf.1, findById_updateDoc, if_neg hne]
  · rw [hcf.2, versionsOf_updateDoc]

/-- Creating a fresh document at currentVersion 1 together with its first
version record succeeds and re-establishes the version invariant. -/
theorem createFirstVersion (s : Store) (newId : DocId) (doc : Doc) (c : Val) (u : UserId)
    (habs : s.findById newId = none)
    (hcv : doc.currentVersion = 1)
    (hinv : versionInvariant s) :
    createVersion (s.insertDoc newId doc) ⟨newId, 1, c, u⟩ =
      ({ s.insertDoc newId doc with versions := s.versions ++ [⟨newId, 1, c, u⟩] }, true) ∧
    versionInvariant
      { s.insertDoc newId doc with versions := s.versions ++ [⟨newId, 1, c, u⟩] } ∧
    versionsOf { s.insertDoc newId doc with versions := s.versions ++ [⟨newId, 1, c, u⟩] } newId
      = [⟨newId, 1, c, u⟩] ∧
    ({ s.insertDoc newId doc with
       versions := s.versions ++ [⟨newId, 1, c, u⟩] } : Store).findById newId = some doc := by
  obtain ⟨hok, horph⟩ := hinv
  have hnil : versionsOf s newId = [] := versionsOf_eq_nil_of_absent ⟨hok, horph⟩ habs
  have hnotmem : ∀ w ∈ s.versions, w.document = newId → w.versionNumber ≠ 1 := by
    intro w hw hwd _
    have : w.versionNumber ∈ versionNumbersOf s newId := mem_versionNumbersOf hw hwd
    rw [versionNumbersOf, hnil] at this
    cases this
  have hcreate : createVersion (s.insertDoc newId doc) ⟨newId, 1, c, u⟩ =
      ({ s.insertDoc newId doc with versions := s.versions ++ [⟨newId, 1, c, u⟩] }, true) :=
    createVersion_of_not_mem hnotmem
  have hfind : ∀ d', ({ s.insertDoc newId doc with
      versions := s.versions ++ [⟨newId, 1, c, u⟩] } : Store).findById d'
      = if d' = newId then some doc else s.findById d' := fun _ => rfl
  have hvers : ∀ d', versionsOf
      { s.insertDoc newId doc with versions := s.versions ++ [⟨newId, 1, c, u⟩] } d'
      = versionsOf s d' ++ if newId == d' then [⟨newId, 1, c, u⟩] else [] := by
    intro d'
    have : versionsOf
        { s.insertDoc newId doc with versions := s.versions ++ [⟨newId, 1, c, u⟩] } d'
        = versionsOf { s with versions := s.versions ++ [⟨newId, 1, c, u⟩] } d' := rfl
    rw [this, versionsOf_append]
  have hversNew : versionsOf
      { s.insertDoc newId doc with versions := s.versions ++ [⟨newId, 1, c, u⟩] } newId
      = [⟨newId, 1, c, u⟩] := by
    rw [hvers, if_pos (beq_self_eq_true newId ▸ rfl), hnil, List.nil_append]
  refine ⟨hcreate, ?_, hversNew, by rw [hfind, if_pos rfl]⟩
  constructor
  · intro d' doc' h'
    rw [hfind] at h'
    by_cases hdd : d' = newId
    · subst hdd
      rw [if_pos rfl] at h'
      cases h'
      have hnums : versionNumbersOf
          { s.insertDoc d' doc with versions := s.versions ++ [⟨d', 1, c, u⟩] } d' = [1] := by
        rw [versionNumbersOf, hversNew]; rfl
      refine ⟨?_, ?_, ?_⟩
      · rw [hnums, hcv]; rfl
      · rw [hnums]; exact List.nodup_singleton _
      · intro n hn
        rw [hnums, List.mem_singleton] at hn
        subst hn
        rw [hcv]
        exact ⟨le_refl 1, le_refl 1⟩
    · rw [if_neg hdd] at h'
      have hvd' : versionsOf
          { s.insertDoc newId doc with versions := s.versions ++ [⟨newId, 1, c, u⟩] } d'
          = versionsOf s d' := by
        rw [hvers, if_neg (by simpa using fun h => hdd h.symm), List.append_nil]
      have hok' := hok d' doc' h'
      refine ⟨?_, ?_, ?_⟩
      · rw [versionNumbersOf_congr hvd']; exact hok'.1
      · rw [versionNumbersOf_congr hvd']; exact hok'.2.1
      · rw [versionNumbersOf_congr hvd']; exact hok'.2.2
  · intro v hv
    rw [List.mem_append, List.mem_singleton] at hv
    rcases hv with hv | hv
    · rw [hfind]
      by_cases hdd : v.document = newId
      · rw [if_pos hdd]; simp
      · rw [if_neg hdd]; exact horph v hv
    · subst hv
      rw [hfind]
      simp

theorem getOnlineUsers_eq {s : Store} {D : DocId} {doc : Doc} (hdoc : s.findById D = some doc) :
    getOnlineUsers s D = doc.onlineUsers := by
  unfold getOnlineUsers; rw [hdoc]

theorem removeUser_findById (s : Store) (D : DocId) (u : UserId) :
    (removeUserFromDocument s D u).findById D =
      (s.findById D).map (fun d => { d with onlineUsers := jsPullId d.onlineUsers u }) := by
  unfold removeUserFromDocument
  rw [findById_updateDoc, if_pos rfl]

theorem removeUser_findById_ne (s : Store) (D : DocId) (u : UserId) (D' : DocId)
    (h : D' ≠ D) :
    (removeUserFromDocument s D u).findById D' = s.findById D' := by
  unfold removeUserFromDocument
  rw [findById_updateDoc, if_neg h]

theorem removeUser_versionsOf (s : Store) (D : DocId) (u : UserId) (d : DocId) :
    versionsOf (removeUserFromDocument s D u) d = versionsOf s d := rfl

theorem removeUser_preserves (s : Store) (D : DocId) (u : UserId)
    (hinv : versionInvariant s) : versionInvariant (removeUserFromDocument s D u) :=
  updateDoc_preserves_inv s D _ (fun _ => rfl) hinv

theorem addUser_findById (s : Store) (D : DocId) (u : UserId) :
    (addUserToDocument s D u).findById D =
      (s.findById D).map (fun d => { d with onlineUsers := jsAddToSet d.onlineUsers u }) := by
  unfold addUserToDocument
  rw [findById_updateDoc, if_pos rfl]

theorem addUser_findById_ne (s : Store) (D : DocId) (u : UserId) (D' : DocId) (h : D' ≠ D) :
    (addUserToDocument s D u).findById D' = s.findById D' := by
  unfold addUserToDocument
  rw [findById_updateDoc, if_neg h]

theorem addUser_versionsOf (s : Store) (D : DocId) (u : UserId) (d : DocId) :
    versionsOf (addUserToDocument s D u) d = versionsOf s d := rfl

theorem addUser_preserves (s : Store) (D : DocId) (u : UserId)
    (hinv : versionInvariant s) : versionInvariant (addUserToDocument s D u) :=
  updateDoc_preserves_inv s D _ (fun _ => rfl) hinv

/-- The disconnect loop preserves the version invariant. -/
theorem disconnectLoop_preserves (u : UserRec) (rooms : List DocId) :
    ∀ s : Store, versionInvariant s → versionInvariant (disconnectLoop u rooms s).store := by
  induction rooms with
  | nil => intro s hinv; exact hinv
  | cons documentId rest ih =>
    intro s hinv
    simp only [disconnectLoop]
    apply ih
    split
    · exact saveDocumentVersion_preserves _ _ _ (removeUser_preserves s documentId u.id hinv)
    · exact removeUser_preserves s documentId u.id hinv

/-- The disconnect loop never touches a document outside the processed
rooms. -/
theorem disconnectLoop_frame (u : UserRec) (rooms : List DocId) :
    ∀ s : Store, ∀ D : DocId, D ∉ rooms →
      (disconnectLoop u rooms s).store.findById D = s.findById D ∧
      versionsOf (disconnectLoop u rooms s).store D = versionsOf s D := by
  induction rooms with
  | nil => intro s D _; exact ⟨rfl, rfl⟩
  | cons documentId rest ih =>
    intro s D hD
    rw [List.mem_cons, not_or] at hD
    obtain ⟨hne, hrest⟩ := hD
    simp only [disconnectLoop]
    have hstep : ∀ s2 : Store,
        (s2 = (if (getOnlineUsers s documentId).length > 1 &&
                  (getOnlineUsers (removeUserFromDocument s documentId u.id) documentId).length > 0
               then saveDocumentVersion (removeUserFromDocument s documentId u.id) documentId u.id
               else (removeUserFromDocument s documentId u.id, [])).1) →
        s2.findById D = s.findById D ∧ versionsOf s2 D = versionsOf s D := by
      intro s2 hs2
      subst hs2
      split
      · have h1 := saveDocumentVersion_frame
          (removeUserFromDocument s documentId u.id) documentId u.id D hne
        rw [h1.1, h1.2, removeUser_findById_ne s documentId u.id D hne,
            removeUser_versionsOf]
        exact ⟨rfl, rfl⟩
      · rw [removeUser_findById_ne s documentId u.id D hne, removeUser_versionsOf]
        exact ⟨rfl, rfl⟩
    obtain ⟨hf, hv⟩ := hstep _ rfl
    obtain ⟨hf2, hv2⟩ := ih _ D hrest
    exact ⟨by rw [hf2, hf], by rw [hv2, hv]⟩

/-- Behavior of the disconnect loop at one occupied room: presence is
pulled, the snapshot happens exactly under the before/after condition of
the source, and the user-left broadcast carries the post-removal list. -/
theorem disconnectLoop_at (u : UserRec) (rooms : List DocId) :
    ∀ s : Store, ∀ D : DocId, ∀ doc : Doc,
      versionInvariant s → rooms.Nodup → D ∈ rooms → s.findById D = some doc →
      ((disconnectLoop u rooms s).store.findById D).map Doc.onlineUsers =
        some (jsPullId doc.onlineUsers u.id) ∧
      versionsOf (disconnectLoop u rooms s).store D =
        versionsOf s D ++
          (if doc.onlineUsers.length > 1 && (jsPullId doc.onlineUsers u.id).length > 0 then
            [⟨D, doc.currentVersion + 1, jsOr doc.data doc.content, u.id⟩]
          else []) ∧
      (⟨Dest.roomAll D, Payload.userLeft u.id (jsPullId doc.onlineUsers u.id)⟩ : Msg) ∈
        (disconnectLoop u rooms s).emits := by
  induction rooms with
  | nil => intro s D doc _ _ hD _; cases hD
  | cons documentId rest ih =>
    intro s D doc hinv hnd hD hdoc
    rw [List.nodup_cons] at hnd
    obtain ⟨hhead, hndrest⟩ := hnd
    simp only [disconnectLoop]
    rcases List.mem_cons.mp hD with hDhead | hDrest
    · subst hDhead
      have hbefore : getOnlineUsers s D = doc.onlineUsers := getOnlineUsers_eq hdoc
      have hafter : getOnlineUsers (removeUserFromDocument s D u.id) D =
          jsPullId doc.onlineUsers u.id := by
        unfold getOnlineUsers
        rw [removeUser_findById, hdoc]
        rfl
      have hs1doc : (removeUserFromDocument s D u.id).findById D =
          some { doc with onlineUsers := jsPullId doc.onlineUsers u.id } := by
        rw [removeUser_findById, hdoc]; rfl
      have hs1inv := removeUser_preserves s D u.id hinv
      rw [hbefore, hafter]
      by_cases hcond : doc.onlineUsers.length > 1 && (jsPullId doc.onlineUsers u.id).length > 0
      · rw [if_pos hcond]
        obtain ⟨hfound, _, hvers, _, hinv2, _⟩ :=
          saveDocumentVersion_spec (removeUserFromDocument s D u.id) D u.id
            { doc with onlineUsers := jsPullId doc.onlineUsers u.id } hs1doc hs1inv
        obtain ⟨hf3, hv3⟩ := disconnectLoop_frame u rest _ D hhead
        refine ⟨?_, ?_, ?_⟩
        · rw [hf3, hfound]; rfl
        · rw [hv3, hvers, removeUser_versionsOf, if_pos hcond]
        · exact List.mem_cons_self _ _
      · rw [if_neg hcond]
        obtain ⟨hf3, hv3⟩ := disconnectLoop_frame u rest _ D hhead
        refine ⟨?_, ?_, ?_⟩
        · rw [hf3, hs1doc]; rfl
        · rw [hv3, removeUser_versionsOf, if_neg hcond, List.append_nil]
        · exact List.mem_cons_self _ _
    · have hne : D ≠ documentId := fun h => hhead (h ▸ hDrest)
      have hstep :
          (if (getOnlineUsers s documentId).length > 1 &&
              (getOnlineUsers (removeUserFromDocument s documentId u.id) documentId).length > 0
           then saveDocumentVersion (removeUserFromDocument s documentId u.id) documentId u.id
           else (removeUserFromDocument s documentId u.id, [])).1.findById D = s.findById D ∧
          versionsOf
            (if (getOnlineUsers s documentId).length > 1 &&
                (getOnlineUsers (removeUserFromDocument s documentId u.id) documentId).length > 0
             then saveDocumentVersion (removeUserFromDocument s documentId u.id) documentId u.id
             else (removeUserFromDocument s documentId u.id, [])).1 D = versionsOf s D ∧
          versionInvariant
            (if (getOnlineUsers s documentId).length > 1 &&
                (getOnlineUsers (removeUserFromDocument s documentId u.id) documentId).length > 0
             then saveDocumentVersion (removeUserFromDocument s documentId u.id) documentId u.id
             else (removeUserFromDocument s documentId u.id, [])).1 := by
        split
        · have h1 := saveDocumentVersion_frame
            (removeUserFromDocument s documentId u.id) documentId u.id D hne
          refine ⟨?_, ?_, ?_⟩
          · rw [h1.1, removeUser_findById_ne s documentId u.id D hne]
          · rw [h1.2, removeUser_versionsOf]
          · exact saveDocumentVersion_preserves _ _ _
              (removeUser_preserves s documentId u.id hinv)
        · refine ⟨?_, ?_, ?_⟩
          · rw [removeUser_findById_ne s documentId u.id D hne]
          · rw [removeUser_versionsOf]
          · exact removeUser_preserves s documentId u.id hinv
      obtain ⟨hsf, hsv, hsinv⟩ := hstep
      obtain ⟨ih1, ih2, ih3⟩ := ih _ D doc hsinv hndrest hDrest (by rw [hsf, hdoc])
      refine ⟨ih1, ?_, List.mem_cons_of_mem _ ih3⟩
      rw [ih2, hsv]

theorem saveRoomStep_denied (u : UserRec) (data : Val) (s : Store) (doc : Doc)
    (documentId : DocId) (h : editDenied doc u.id = true) :
    saveRoomStep u data s doc documentId =
      ⟨s, [⟨Dest.sender, Payload.errorMsg "You do not have permission to save this document"⟩],
       [], true⟩ := by
  unfold saveRoomStep
  rw [if_pos h]

theorem saveRoomStep_allowed (u : UserRec) (data : Val) (s : Store) (doc : Doc)
    (documentId : DocId) (h : editDenied doc u.id = false)
    (hsw : (saveWrite s documentId u.id data doc).2 = true) :
    saveRoomStep u data s doc documentId =
      ⟨(saveWrite s documentId u.id data doc).1, [],
       [CacheKey.docKey documentId, CacheKey.userDocs u.id], true⟩ := by
  unfold saveRoomStep
  rw [if_neg (by rw [h]; exact Bool.false_ne_true), if_pos hsw]

theorem saveRoomStep_failed (u : UserRec) (data : Val) (s : Store) (doc : Doc)
    (documentId : DocId) (h : editDenied doc u.id = false)
    (hsw : (saveWrite s documentId u.id data doc).2 = false) :
    saveRoomStep u data s doc documentId =
      ⟨(saveWrite s documentId u.id data doc).1,
       [⟨Dest.sender, Payload.errorMsg "Failed to save document"⟩], [], false⟩ := by
  unfold saveRoomStep
  rw [if_neg (by rw [h]; exact Bool.false_ne_true),
      if_neg (by rw [hsw]; exact Bool.false_ne_true)]

/-- The save loop preserves the version invariant. -/
theorem saveDocumentLoop_preserves (u : UserRec) (data : Val) (rooms : List DocId) :
    ∀ s : Store, versionInvariant s → versionInvariant (saveDocumentLoop u data rooms s).store := by
  induction rooms with
  | nil => intro s hinv; exact hinv
  | cons documentId rest ih =>
    intro s hinv
    cases hdoc : s.findById documentId with
    | none =>
      simp only [saveDocumentLoop, hdoc]
      exact ih s hinv
    | some doc =>
      cases hden : editDenied doc u.id with
      | true =>
        simp only [saveDocumentLoop, hdoc, saveRoomStep_denied u data s doc documentId hden, if_true]
        exact ih s hinv
      | false =>
        obtain ⟨hsw, _, _, _, _, hinv2⟩ := saveWrite_spec s documentId u.id data doc hdoc hinv
        simp only [saveDocumentLoop, hdoc,
          saveRoomStep_allowed u data s doc documentId hden hsw, if_true]
        exact ih _ hinv2

/-- The save loop never touches a document outside the processed rooms. -/
theorem saveDocumentLoop_frame (u : UserRec) (data : Val) (rooms : List DocId) :
    ∀ s : Store, ∀ D : DocId, D ∉ rooms →
      (saveDocumentLoop u data rooms s).store.findById D = s.findById D ∧
      versionsOf (saveDocumentLoop u data rooms s).store D = versionsOf s D := by
  induction rooms with
  | nil => intro s D _; exact ⟨rfl, rfl⟩
  | cons documentId rest ih =>
    intro s D hD
    rw [List.mem_cons, not_or] at hD
    obtain ⟨hne, hrest⟩ := hD
    cases hdoc : s.findById documentId with
    | none =>
      simp only [saveDocumentLoop, hdoc]
      exact ih s D hrest
    | some doc =>
      cases hden : editDenied doc u.id with
      | true =>
        simp only [saveDocumentLoop, hdoc, saveRoomStep_denied u data s doc documentId hden, if_true]
        exact ih s D hrest
      | false =>
        have hswf := saveWrite_frame s documentId u.id data doc D hne
        cases hsw : (saveWrite s documentId u.id data doc).2 with
        | true =>
          simp only [saveDocumentLoop, hdoc,
            saveRoomStep_allowed u data s doc documentId hden hsw, if_true]
          obtain ⟨ih1, ih2⟩ := ih ((saveWrite s documentId u.id data doc).1) D hrest
          exact ⟨by rw [ih1, hswf.1], by rw [ih2, hswf.2]⟩
        | false =>
          simp only [saveDocumentLoop, hdoc,
            saveRoomStep_failed u data s doc documentId hden hsw]
          exact hswf

/-- Keys deleted by the save loop are only per-room document keys and the
sender's document-list key. -/
theorem saveDocumentLoop_dels (u : UserRec) (data : Val) (rooms : List DocId) :
    ∀ s : Store, ∀ k ∈ (saveDocumentLoop u data rooms s).dels,
      (∃ g ∈ rooms, k = CacheKey.docKey g) ∨ k = CacheKey.userDocs u.id := by
  induction rooms with
  | nil => intro s k hk; cases hk
  | cons documentId rest ih =>
    intro s k hk
    cases hdoc : s.findById documentId with
    | none =>
      simp only [saveDocumentLoop, hdoc] at hk
      rcases ih s k hk with ⟨g, hg, hkg⟩ | hku
      · exact Or.inl ⟨g, List.mem_cons_of_mem _ hg, hkg⟩
      · exact Or.inr hku
    | some doc =>
      cases hden : editDenied doc u.id with
      | true =>
        simp only [saveDocumentLoop, hdoc,
          saveRoomStep_denied u data s doc documentId hden, List.nil_append] at hk
        rcases ih s k hk with ⟨g, hg, hkg⟩ | hku
        · exact Or.inl ⟨g, List.mem_cons_of_mem _ hg, hkg⟩
        · exact Or.inr hku
      | false =>
        cases hsw : (saveWrite s documentId u.id data doc).2 with
        | true =>
          simp only [saveDocumentLoop, hdoc,
            saveRoomStep_allowed u data s doc documentId hden hsw, if_true] at hk
          rcases List.mem_cons.mp hk with hk1 | hk2
          · exact Or.inl ⟨documentId, List.mem_cons_self _ _, hk1⟩
          · rcases List.mem_cons.mp hk2 with hk3 | hk4
            · exact Or.inr hk3
            · rcases ih _ k hk4 with ⟨g, hg, hkg⟩ | hku
              · exact Or.inl ⟨g, List.mem_cons_of_mem _ hg, hkg⟩
              · exact Or.inr hku
        | false =>
          simp only [saveDocumentLoop, hdoc,
            saveRoomStep_failed u data s doc documentId hden hsw] at hk
          cases hk

/-- Behavior of the save loop at one occupied room when the sender is
denied there: the document and its versions are untouched and the scoped
permission error is emitted. -/
theorem saveDocumentLoop_at_denied (u : UserRec) (data : Val) (rooms : List DocId) :
    ∀ s : Store, ∀ D : DocId, ∀ doc : Doc,
      versionInvariant s → rooms.Nodup → D ∈ rooms → s.findById D = some doc →
      editDenied doc u.id = true →
      (saveDocumentLoop u data rooms s).store.findById D = some doc ∧
      versionsOf (saveDocumentLoop u data rooms s).store D = versionsOf s D ∧
      (⟨Dest.sender,
        Payload.errorMsg "You do not have permission to save this document"⟩ : Msg) ∈
        (saveDocumentLoop u data rooms s).emits := by
  induction rooms with
  | nil => intro s D doc _ _ hD _ _; cases hD
  | cons documentId rest ih =>
    intro s D doc hinv hnd hD hdoc hden
    rw [List.nodup_cons] at hnd
    obtain ⟨hhead, hndrest⟩ := hnd
    rcases List.mem_cons.mp hD with hDhead | hDrest
    · subst hDhead
      simp only [saveDocumentLoop, hdoc, saveRoomStep_denied u data s doc D hden, if_true]
      obtain ⟨hf, hv⟩ := saveDocumentLoop_frame u data rest s D hhead
      exact ⟨by rw [hf, hdoc], by rw [hv], List.mem_cons_self _ _⟩
    · have hne : D ≠ documentId := fun h => hhead (h ▸ hDrest)
      cases hdoc2 : s.findById documentId with
      | none =>
        simp only [saveDocumentLoop, hdoc2]
        exact ih s D doc hinv hndrest hDrest hdoc hden
      | some doc2 =>
        cases hden2 : editDenied doc2 u.id with
        | true =>
          simp only [saveDocumentLoop, hdoc2,
            saveRoomStep_denied u data s doc2 documentId hden2, if_true]
          obtain ⟨ih1, ih2, ih3⟩ := ih s D doc hinv hndrest hDrest hdoc hden
          exact ⟨ih1, ih2, List.mem_cons_of_mem _ ih3⟩
        | false =>
          obtain ⟨hsw, _, hfr, _, hversfr, hinv2⟩ :=
            saveWrite_spec s documentId u.id data doc2 hdoc2 hinv
          simp only [saveDocumentLoop, hdoc2,
            saveRoomStep_allowed u data s doc2 documentId hden2 hsw, if_true]
          obtain ⟨ih1, ih2, ih3⟩ :=
            ih _ D doc hinv2 hndrest hDrest (by rw [hfr D hne, hdoc]) hden
          refine ⟨ih1, ?_, by simpa using ih3⟩
          rw [ih2, hversfr D hne]

/-- Behavior of the save loop at one occupied room when the sender is
allowed there: data is persisted as content and data, currentVersion is
bumped by one, the matching version record is appended, and the two cache
keys are deleted. -/
theorem saveDocumentLoop_at_allowed (u : UserRec) (data : Val) (rooms : List DocId) :
    ∀ s : Store, ∀ D : DocId, ∀ doc : Doc,
      versionInvariant s → rooms.Nodup → D ∈ rooms → s.findById D = some doc →
      editDenied doc u.id = false →
      (saveDocumentLoop u data rooms s).store.findById D =
        some { doc with data := data, content := data,
                        currentVersion := doc.currentVersion + 1 } ∧
      versionsOf (saveDocumentLoop u data rooms s).store D =
        versionsOf s D ++ [⟨D, doc.currentVersion + 1, jsOr data doc.content, u.id⟩] ∧
      CacheKey.docKey D ∈ (saveDocumentLoop u data rooms s).dels ∧
      CacheKey.userDocs u.id ∈ (saveDocumentLoop u data rooms s).dels := by
  induction rooms with
  | nil => intro s D doc _ _ hD _ _; cases hD
  | cons documentId rest ih =>
    intro s D doc hinv hnd hD hdoc hden
    rw [List.nodup_cons] at hnd
    obtain ⟨hhead, hndrest⟩ := hnd
    rcases List.mem_cons.mp hD with hDhead | hDrest
    · subst hDhead
      obtain ⟨hsw, hfound, _, hvers, _, hinv2⟩ := saveWrite_spec s D u.id data doc hdoc hinv
      simp only [saveDocumentLoop, hdoc, saveRoomStep_allowed u data s doc D hden hsw, if_true]
      obtain ⟨hf, hv⟩ := saveDocumentLoop_frame u data rest _ D hhead
      refine ⟨by rw [hf, hfound], by rw [hv, hvers], ?_, ?_⟩
      · exact List.mem_cons_self _ _
      · exact List.mem_cons_of_mem _ (List.mem_cons_self _ _)
    · have hne : D ≠ documentId := fun h => hhead (h ▸ hDrest)
      cases hdoc2 : s.findById documentId with
      | none =>
        simp only [saveDocumentLoop, hdoc2]
        exact ih s D doc hinv hndrest hDrest hdoc hden
      | some doc2 =>
        cases hden2 : editDenied doc2 u.id with
        | true =>
          simp only [saveDocumentLoop, hdoc2,
            saveRoomStep_denied u data s doc2 documentId hden2, if_true]
          obtain ⟨ih1, ih2, ih3, ih4⟩ := ih s D doc hinv hndrest hDrest hdoc hden
          exact ⟨ih1, ih2, ih3, ih4⟩
        | false =>
          obtain ⟨hsw, _, hfr, _, hversfr, hinv2⟩ :=
            saveWrite_spec s documentId u.id data doc2 hdoc2 hinv
          simp only [saveDocumentLoop, hdoc2,
            saveRoomStep_allowed u data s doc2 documentId hden2 hsw, if_true]
          obtain ⟨ih1, ih2, ih3, ih4⟩ :=
            ih _ D doc hinv2 hndrest hDrest (by rw [hfr D hne, hdoc]) hden
          refine ⟨ih1, ?_, ?_, ?_⟩
          · rw [ih2, hversfr D hne]
          · exact List.mem_cons_of_mem _ (List.mem_cons_of_mem _ ih3)
          · exact List.mem_cons_of_mem _ (List.mem_cons_of_mem _ ih4)

/-- At an occupied room whose document exists where the sender is denied,
the send-changes loop emits the scoped permission error. -/
theorem sendChangesLoop_denied (u : UserRec) (delta : Val) (s : Store) (rooms : List DocId) :
    ∀ D : DocId, ∀ doc : Doc, D ∈ rooms → s.findById D = some doc →
      editDenied doc u.id = true →
      (⟨Dest.sender,
        Payload.errorMsg "You do not have permission to edit this document"⟩ : Msg) ∈
        sendChangesLoop u delta s rooms := by
  induction rooms with
  | nil => intro D doc hD _ _; cases hD
  | cons documentId rest ih =>
    intro D doc hD hdoc hden
    rcases List.mem_cons.mp hD with hDhead | hDrest
    · subst hDhead
      simp only [sendChangesLoop, hdoc, hden, if_true]
      exact List.mem_cons_self _ _
    · cases hdoc2 : s.findById documentId with
      | none =>
        simp only [sendChangesLoop, hdoc2]
        exact ih D doc hDrest hdoc hden
      | some doc2 =>
        simp only [sendChangesLoop, hdoc2]
        split
        · exact List.mem_cons_of_mem _ (ih D doc hDrest hdoc hden)
        · exact List.mem_cons_of_mem _ (ih D doc hDrest hdoc hden)

/-- Behavior of the join tail of get-document on a stored document:
presence is added with set semantics, the snapshot happens exactly when
the post-join online list has more than one member, and the invariant is
preserved. -/
theorem joinDocumentRoom_spec (s : Store) (conn : Conn) (documentId : DocId) (document : Doc)
    (dels0 : List CacheKey)
    (hdoc : s.findById documentId = some document) (hinv : versionInvariant s) :
    versionInvariant ((joinDocumentRoom s conn documentId document dels0).2).store ∧
    versionsOf ((joinDocumentRoom s conn documentId document dels0).2).store documentId =
      versionsOf s documentId ++
        (if (jsAddToSet document.onlineUsers conn.user.id).length > 1 then
          [⟨documentId, document.currentVersion + 1, jsOr document.data document.content,
            conn.user.id⟩]
        else []) ∧
    (¬ (jsAddToSet document.onlineUsers conn.user.id).length > 1 →
      ((joinDocumentRoom s conn documentId document dels0).2).store.findById documentId =
        some { document with onlineUsers := jsAddToSet document.onlineUsers conn.user.id }) := by
  have haddfind : (addUserToDocument s documentId conn.user.id).findById documentId =
      some { document with onlineUsers := jsAddToSet document.onlineUsers conn.user.id } := by
    rw [addUser_findById, hdoc]; rfl
  have honline : getOnlineUsers (addUserToDocument s documentId conn.user.id) documentId =
      jsAddToSet document.onlineUsers conn.user.id := getOnlineUsers_eq haddfind
  have hinv1 := addUser_preserves s documentId conn.user.id hinv
  simp only [joinDocumentRoom, honline]
  by_cases hcond : (jsAddToSet document.onlineUsers conn.user.id).length > 1
  · rw [if_pos hcond, if_pos hcond]
    obtain ⟨_, _, hvers, _, hinv2, _⟩ :=
      saveDocumentVersion_spec (addUserToDocument s documentId conn.user.id) documentId
        conn.user.id { document with onlineUsers := jsAddToSet document.onlineUsers conn.user.id }
        haddfind hinv1
    refine ⟨hinv2, ?_, fun hc => absurd hcond hc⟩
    rw [hvers, addUser_versionsOf]
  · rw [if_neg hcond, if_neg hcond, List.append_nil]
    exact ⟨hinv1, addUser_versionsOf s documentId conn.user.id documentId, fun _ => haddfind⟩

/-- The document freshly created by the implicit get-document path. -/
def implicitNewDoc (u : UserId) : Doc :=
  ⟨"Untitled Document", Val.str "", defaultValue, u, [], [], 1⟩

/-- The implicit get-document creation path: the document is created with
empty content, the requester as owner, an empty collaborator set, the
requester online, currentVersion 1, and a first version record numbered 1
is created; the invariant is re-established. -/
theorem getDocumentHandler_creates (s : Store) (conn : Conn) (documentId : DocId)
    (hinv : versionInvariant s) (habs : s.findById documentId = none) :
    ((getDocumentHandler s conn documentId).2).store.findById documentId =
      some { implicitNewDoc conn.user.id with onlineUsers := [conn.user.id] } ∧
    versionsOf ((getDocumentHandler s conn documentId).2).store documentId =
      versionsOf s documentId ++ [⟨documentId, 1, Val.str "", conn.user.id⟩] ∧
    versionInvariant ((getDocumentHandler s conn documentId).2).store := by
  have hnil : versionsOf s documentId = [] := versionsOf_eq_nil_of_absent hinv habs
  obtain ⟨hcreate, hinv2, hvers2, hfind2⟩ :=
    createFirstVersion s documentId (implicitNewDoc conn.user.id) (Val.str "") conn.user.id
      habs rfl hinv
  have hred : getDocumentHandler s conn documentId =
      joinDocumentRoom
        { s.insertDoc documentId (implicitNewDoc conn.user.id) with
          versions := s.versions ++ [⟨documentId, 1, Val.str "", conn.user.id⟩] }
        conn documentId (implicitNewDoc conn.user.id) [CacheKey.userDocs conn.user.id] := by
    unfold getDocumentHandler
    rw [habs]
    simp only [implicitNewDoc] at hcreate
    simp only [hcreate, if_true]
    rfl
  obtain ⟨hinv3, hvers3, hfind3⟩ :=
    joinDocumentRoom_spec
      { s.insertDoc documentId (implicitNewDoc conn.user.id) with
        versions := s.versions ++ [⟨documentId, 1, Val.str "", conn.user.id⟩] }
      conn documentId (implicitNewDoc conn.user.id) [CacheKey.userDocs conn.user.id]
      hfind2 hinv2
  have hone : ¬ (jsAddToSet (implicitNewDoc conn.user.id).onlineUsers conn.user.id).length > 1 := by
    simp [implicitNewDoc, jsAddToSet]
  refine ⟨?_, ?_, ?_⟩
  · rw [hred]
    have := hfind3 hone
    rw [this]
    rfl
  · rw [hred, hvers3, if_neg hone, List.append_nil, hvers2, hnil, List.nil_append]
  · rw [hred]; exact hinv3

/-- The get-document handler preserves the version invariant on every
path. -/
theorem getDocumentHandler_preserves (s : Store) (conn : Conn) (documentId : DocId)
    (hinv : versionInvariant s) :
    versionInvariant ((getDocumentHandler s conn documentId).2).store := by
  cases hdoc : s.findById documentId with
  | some document =>
    by_cases hacc : hasDocumentAccess s documentId conn.user.id = true
    · have hred : getDocumentHandler s conn documentId =
          joinDocumentRoom s conn documentId document [] := by
        unfold getDocumentHandler
        simp only [hdoc, hacc, if_true]
      rw [hred]
      exact (joinDocumentRoom_spec s conn documentId document [] hdoc hinv).1
    · have hred : getDocumentHandler s conn documentId =
          (conn, ⟨s, [⟨Dest.sender, Payload.errorMsg "Access denied"⟩], []⟩) := by
        unfold getDocumentHandler
        simp only [hdoc]
        rw [if_neg hacc]
      rw [hred]
      exact hinv
  | none =>
    exact (getDocumentHandler_creates s conn documentId hinv hdoc).2.2

theorem emptyStore_invariant : versionInvariant emptyStore := by
  constructor
  · intro d doc hd
    simp only [emptyStore, Store.findById] at hd
    cases hd
  · intro v hv
    cases hv

theorem wStore_invariant : versionInvariant wStore := by
  constructor
  · intro d doc hd
    by_cases hd0 : d = 0
    · subst hd0
      have hwd : doc = wDoc := by
        simp only [wStore, Store.findById, if_pos rfl] at hd
        exact (Option.some_inj.mp hd).symm
      subst hwd
      decide
    · exfalso
      simp only [wStore, Store.findById, if_neg hd0] at hd
      cases hd
  · intro v hv
    have hv1 : v = ⟨0, 1, Val.str "h", 9⟩ := List.mem_singleton.mp hv
    subst hv1
    intro hcontra
    simp only [wStore, Store.findById, if_pos rfl] at hcontra
    cases hcontra

theorem rjStore_invariant : versionInvariant rjStore := by
  constructor
  · intro d doc hd
    by_cases hd0 : d = 0
    · subst hd0
      have hwd : doc = rjDoc := by
        simp only [rjStore, Store.findById, if_pos rfl] at hd
        exact (Option.some_inj.mp hd).symm
      subst hwd
      decide
    · exfalso
      simp only [rjStore, Store.findById, if_neg hd0] at hd
      cases hd
  · intro v hv
    have hv1 : v = ⟨0, 1, Val.str "h", 7⟩ := List.mem_singleton.mp hv
    subst hv1
    intro hcontra
    simp only [rjStore, Store.findById, if_pos rfl] at hcontra
    cases hcontra

/-- C1 counterexample: starting from the empty store, which satisfies the
version invariant, one call of DocumentService.findOrCreateDocument on an
absent id produces a store violating it: the created document has
currentVersion 1 (the schema default) while zero DocumentVersion records
exist for it, so currentVersion does not equal the record count and
version 1 is absent. -/
theorem findOrCreateDocument_violates_version_invariant :
    versionInvariant emptyStore ∧
    ¬ versionInvariant (findOrCreateDocument emptyStore (some 0) 7 1).1 := by
  refine ⟨emptyStore_invariant, ?_⟩
  intro h
  have h2 := h.1 1 ⟨"Untitled Document", Val.str " ", defaultValue, 7, [], [], 1⟩ (by rfl)
  have h3 := h2.1
  exact absurd h3 (by decide)

/-- C1 amended: the invariant that currentVersion equals the number of
DocumentVersion records and the recorded numbers are exactly the
contiguous range from 1 to currentVersion holds across every socket event
handler (each snapshot raising currentVersion by exactly 1), but it is
not established by DocumentService.findOrCreateDocument, which creates a
document at currentVersion 1 with zero version records (see the
counterexample). -/
theorem version_invariant_amended (s : Store) (hinv : versionInvariant s) :
    (∀ conn documentId, versionInvariant ((getDocumentHandler s conn documentId).2).store) ∧
    (∀ conn data, versionInvariant (saveDocumentHandler s conn data).store) ∧
    (∀ conn, versionInvariant ((disconnectHandler s conn).2).store) ∧
    (∀ conn delta, (sendChangesHandler s conn delta).store = s) ∧
    (∀ documentId userId doc, s.findById documentId = some doc →
      (saveDocumentVersion s documentId userId).1.findById documentId =
        some { doc with currentVersion := doc.currentVersion + 1 }) ∧
    (∀ d doc, s.findById d = some doc →
      ∀ n, n ∈ versionNumbersOf s d ↔ 1 ≤ n ∧ n ≤ doc.currentVersion) := by
  refine ⟨?_, ?_, ?_, ?_, ?_, ?_⟩
  · intro conn documentId
    exact getDocumentHandler_preserves s conn documentId hinv
  · intro conn data
    exact saveDocumentLoop_preserves conn.user data conn.rooms s hinv
  · intro conn
    exact disconnectLoop_preserves conn.user conn.rooms s hinv
  · intro conn delta
    rfl
  · intro documentId userId doc hdoc
    exact (saveDocumentVersion_spec s documentId userId doc hdoc hinv).1
  · intro d doc hdoc
    exact docVersionOk_mem_iff (hinv.1 d doc hdoc)

theorem version_invariant_amended_witness :
    versionInvariant wStore ∧
    versionInvariant ((disconnectHandler wStore wConnView).2).store :=
  ⟨wStore_invariant,
   (version_invariant_amended wStore wStore_invariant).2.2.1 wConnView⟩

/-- C2: the concurrency claim fails on the code.  Both save-document
handlers read the document at currentVersion 1 before either writes (the
unsynchronized read-then-write of socketService.ts lines 279-318).  Each
computes versionNumber 2.  The first write creates version 2; the second
write sets currentVersion to 2 again and its DocumentVersion.create hits
the unique (document, versionNumber) index, so the whole save aborts with
the generic failure error: the two saves do not both exist as distinct
strictly increasing versions, and no VersionConflict retry exists in the
code. -/
theorem concurrent_save_version_collision :
    raceStore.findById 0 = some raceDoc ∧
    editDenied raceDoc 1 = false ∧
    editDenied raceDoc 2 = false ∧
    (saveWrite raceStore 0 1 (Val.str "a") raceDoc).2 = true ∧
    (saveWrite (saveWrite raceStore 0 1 (Val.str "a") raceDoc).1 0 2 (Val.str "b") raceDoc).2
      = false ∧
    (saveWrite (saveWrite raceStore 0 1 (Val.str "a") raceDoc).1 0 2 (Val.str "b")
        raceDoc).1.versions
      = [⟨0, 1, Val.str "h", 1⟩, ⟨0, 2, Val.str "a", 1⟩] ∧
    ((saveWrite (saveWrite raceStore 0 1 (Val.str "a") raceDoc).1 0 2 (Val.str "b")
        raceDoc).1.findById 0).map Doc.currentVersion = some 2 ∧
    (saveRoomStep raceUserB (Val.str "b") (saveWrite raceStore 0 1 (Val.str "a") raceDoc).1
        raceDoc 0).emits
      = [⟨Dest.sender, Payload.errorMsg "Failed to save document"⟩] ∧
    (saveRoomStep raceUserB (Val.str "b") (saveWrite raceStore 0 1 (Val.str "a") raceDoc).1
        raceDoc 0).continueLoop = false := by
  refine ⟨rfl, by decide, by decide, by decide, by decide, by decide, by decide, by decide,
    by decide⟩

/-- C3: a non-owner whose collaborator entry carries view permission never
changes the document or its version records through send-changes or
save-document, and in both handlers receives the scoped permission error
for that room; the handlers emit events only, no connection-level
termination exists on these paths. -/
theorem view_only_cannot_mutate (s : Store) (conn : Conn) (D : DocId) (doc : Doc)
    (colEntry : Collaborator) (delta data : Val)
    (hinv : versionInvariant s) (hnd : conn.rooms.Nodup) (hD : D ∈ conn.rooms)
    (hdoc : s.findById D = some doc)
    (hown : doc.owner ≠ conn.user.id)
    (hfind : doc.collaborators.find? (fun c => c.user == conn.user.id) = some colEntry)
    (hview : colEntry.permission = Permission.view) :
    (sendChangesHandler s conn delta).store = s ∧
    (⟨Dest.sender, Payload.errorMsg "You do not have permission to edit this document"⟩ : Msg) ∈
      (sendChangesHandler s conn delta).emits ∧
    (saveDocumentHandler s conn data).store.findById D = some doc ∧
    versionsOf (saveDocumentHandler s conn data).store D = versionsOf s D ∧
    (⟨Dest.sender, Payload.errorMsg "You do not have permission to save this document"⟩ : Msg) ∈
      (saveDocumentHandler s conn data).emits := by
  have howneq : (doc.owner == conn.user.id) = false := beq_eq_false_iff_ne.mpr hown
  have hden : editDenied doc conn.user.id = true := by
    simp only [editDenied, hfind, howneq, hview]
    rfl
  obtain ⟨h1, h2, h3⟩ :=
    saveDocumentLoop_at_denied conn.user data conn.rooms s D doc hinv hnd hD hdoc hden
  exact ⟨rfl, sendChangesLoop_denied conn.user delta s conn.rooms D doc hD hdoc hden,
    h1, h2, h3⟩

theorem view_only_cannot_mutate_witness :
    versionInvariant wStore ∧
    (saveDocumentHandler wStore wConnView (Val.str "y")).store.findById 0 = some wDoc :=
  ⟨wStore_invariant,
   (view_only_cannot_mutate wStore wConnView 0 wDoc ⟨3, Permission.view⟩ (Val.str "x")
     (Val.str "y") wStore_invariant (by decide) (by decide) rfl (by decide) rfl rfl).2.2.1⟩

/-- C4 counterexample: in rjStore user 7 is already the one online user of
document 0 (a second tab of the same user); at least one user is present
before the join, yet the rejoin of user 7 creates no version snapshot,
because after the set-semantics presence add the online list still has
length 1. -/
theorem rejoin_no_snapshot_counterexample :
    versionInvariant rjStore ∧
    rjDoc.onlineUsers ≠ [] ∧
    rjStore.findById 0 = some rjDoc ∧
    hasDocumentAccess rjStore 0 7 = true ∧
    versionsOf ((getDocumentHandler rjStore freshConn 0).2).store 0 = versionsOf rjStore 0 := by
  refine ⟨rjStore_invariant, by decide, rfl, by decide, by decide⟩

/-- C4 amended: a get-document join creates exactly one snapshot,
attributed to the joiner at the next version number, precisely when the
post-join online-user set (presence added with set semantics) has more
than one member; joining an empty document never snapshots since the
post-join set is the singleton of the joiner.  Joining when a user other
than the joiner is present snapshots; joining when only the joiner itself
was already present (another tab) does not. -/
theorem join_snapshot_condition_amended (s : Store) (conn : Conn) (documentId : DocId)
    (document : Doc)
    (hinv : versionInvariant s)
    (hdoc : s.findById documentId = some document)
    (hacc : hasDocumentAccess s documentId conn.user.id = true) :
    versionsOf ((getDocumentHandler s conn documentId).2).store documentId =
      (if (jsAddToSet document.onlineUsers conn.user.id).length > 1 then
        versionsOf s documentId ++
          [⟨documentId, document.currentVersion + 1, jsOr document.data document.content,
            conn.user.id⟩]
      else versionsOf s documentId) ∧
    (document.onlineUsers = [] → (jsAddToSet document.onlineUsers conn.user.id).length = 1) := by
  have hred : getDocumentHandler s conn documentId =
      joinDocumentRoom s conn documentId document [] := by
    unfold getDocumentHandler
    simp only [hdoc, hacc, if_true]
  obtain ⟨_, hvers, _⟩ := joinDocumentRoom_spec s conn documentId document [] hdoc hinv
  constructor
  · rw [hred, hvers]
    by_cases hc : (jsAddToSet document.onlineUsers conn.user.id).length > 1
    · rw [if_pos hc, if_pos hc]
    · rw [if_neg hc, if_neg hc, List.append_nil]
  · intro hmt
    rw [hmt]
    rfl

theorem join_snapshot_condition_amended_witness :
    versionInvariant wStore ∧
    versionsOf ((getDocumentHandler wStore wConnView 0).2).store 0 =
      (if (jsAddToSet wDoc.onlineUsers 3).length > 1 then
        versionsOf wStore 0 ++ [⟨0, wDoc.currentVersion + 1, jsOr wDoc.data wDoc.content, 3⟩]
      else versionsOf wStore 0) :=
  ⟨wStore_invariant,
   (join_snapshot_condition_amended wStore wConnView 0 wDoc wStore_invariant rfl (by decide)).1⟩

/-- C5: on disconnect, for every occupied room whose document exists, the
departing user is pulled from presence, exactly one snapshot attributed to
the leaver at the next version number is created precisely when the
pre-removal online count exceeded 1 and the post-removal count is
positive (so none when the leaver was the last user online), and the
user-left broadcast to the whole room carries the post-removal online
list. -/
theorem disconnect_snapshot_policy (s : Store) (conn : Conn) (D : DocId) (doc : Doc)
    (hinv : versionInvariant s) (hnd : conn.rooms.Nodup) (hD : D ∈ conn.rooms)
    (hdoc : s.findById D = some doc) :
    (((disconnectHandler s conn).2).store.findById D).map Doc.onlineUsers =
      some (jsPullId doc.onlineUsers conn.user.id) ∧
    versionsOf ((disconnectHandler s conn).2).store D =
      versionsOf s D ++
        (if doc.onlineUsers.length > 1 &&
            (jsPullId doc.onlineUsers conn.user.id).length > 0 then
          [⟨D, doc.currentVersion + 1, jsOr doc.data doc.content, conn.user.id⟩]
        else []) ∧
    (⟨Dest.roomAll D,
      Payload.userLeft conn.user.id (jsPullId doc.onlineUsers conn.user.id)⟩ : Msg) ∈
      ((disconnectHandler s conn).2).emits ∧
    (doc.onlineUsers.length = 1 →
      versionsOf ((disconnectHandler s conn).2).store D = versionsOf s D) := by
  obtain ⟨h1, h2, h3⟩ := disconnectLoop_at conn.user conn.rooms s D doc hinv hnd hD hdoc
  refine ⟨h1, h2, h3, ?_⟩
  intro hone
  have hc : ¬ ((doc.onlineUsers.length > 1 &&
      (jsPullId doc.onlineUsers conn.user.id).length > 0) = true) := by
    rw [hone]
    simp
  show versionsOf (disconnectLoop conn.user conn.rooms s).store D = versionsOf s D
  rw [h2, if_neg hc, List.append_nil]

theorem disconnect_snapshot_policy_witness :
    versionInvariant wStore ∧
    versionsOf ((disconnectHandler wStore wConnView).2).store 0 =
      versionsOf wStore 0 ++
        (if wDoc.onlineUsers.length > 1 && (jsPullId wDoc.onlineUsers 3).length > 0 then
          [⟨0, wDoc.currentVersion + 1, jsOr wDoc.data wDoc.content, 3⟩]
        else []) :=
  ⟨wStore_invariant,
   (disconnect_snapshot_policy wStore wConnView 0 wDoc wStore_invariant (by decide)
     (by decide) rfl).2.1⟩

/-- C6 counterexample: a get-document event for the absent id 0 creates
the document implicitly and also creates the version-1 snapshot, so the
implicit path does not skip the initial snapshot. -/
theorem implicit_create_makes_first_version :
    emptyStore.findById 0 = none ∧
    versionsOf ((getDocumentHandler emptyStore freshConn 0).2).store 0 =
      [⟨0, 1, Val.str "", 7⟩] := by
  refine ⟨rfl, by decide⟩

/-- C6 amended: a get-document join on an absent id creates the document
with empty content, the requester as owner, an empty collaborator set and
currentVersion 1, and also creates an initial version-1 snapshot, exactly
like the explicit create path; the only path that skips the initial
snapshot is DocumentService.findOrCreateDocument, which creates the
document (at a fresh generated id) with no version record. -/
theorem creation_paths_first_version_amended (s : Store) (conn : Conn) (documentId : DocId)
    (hinv : versionInvariant s) (habs : s.findById documentId = none) :
    ((getDocumentHandler s conn documentId).2).store.findById documentId =
      some { implicitNewDoc conn.user.id with onlineUsers := [conn.user.id] } ∧
    versionsOf ((getDocumentHandler s conn documentId).2).store documentId =
      versionsOf s documentId ++ [⟨documentId, 1, Val.str "", conn.user.id⟩] ∧
    (∀ newId userId title content, s.findById newId = none → jsTrim title ≠ "" →
      ∃ s2, createDocumentCtrl s newId userId title content = some s2 ∧
        versionsOf s2 newId =
          [⟨newId, 1, Val.str (if !(jsTrim content == "") then content else " "), userId⟩]) ∧
    (∀ freshId userId,
      (findOrCreateDocument s (some documentId) userId freshId).1.versions = s.versions ∧
      (findOrCreateDocument s (some documentId) userId freshId).1.findById freshId =
        some ⟨"Untitled Document", Val.str " ", defaultValue, userId, [], [], 1⟩) := by
  obtain ⟨hc1, hc2, _⟩ := getDocumentHandler_creates s conn documentId hinv habs
  refine ⟨hc1, hc2, ?_, ?_⟩
  · intro newId userId title content habs2 htitle
    have hnil : versionsOf s newId = [] := versionsOf_eq_nil_of_absent hinv habs2
    have hbeq : (jsTrim title == "") = false := beq_eq_false_iff_ne.mpr htitle
    obtain ⟨hcr, _, hvers2, _⟩ :=
      createFirstVersion s newId
        ⟨jsTrim title, Val.str (if !(jsTrim content == "") then content else " "),
          defaultValue, userId, [], [], 1⟩
        (Val.str (if !(jsTrim content == "") then content else " ")) userId habs2 rfl hinv
    have hctrl : createDocumentCtrl s newId userId title content =
        some { s.insertDoc newId
                 ⟨jsTrim title, Val.str (if !(jsTrim content == "") then content else " "),
                   defaultValue, userId, [], [], 1⟩ with
               versions := s.versions ++
                 [⟨newId, 1, Val.str (if !(jsTrim content == "") then content else " "),
                   userId⟩] } := by
      unfold createDocumentCtrl
      rw [if_neg (by rw [hbeq]; exact Bool.false_ne_true)]
      simp only [hcr, if_true]
    exact ⟨_, hctrl, hvers2⟩
  · intro freshId userId
    have hred : findOrCreateDocument s (some documentId) userId freshId =
        (s.insertDoc freshId ⟨"Untitled Document", Val.str " ", defaultValue, userId, [], [], 1⟩,
         some ⟨"Untitled Document", Val.str " ", defaultValue, userId, [], [], 1⟩) := by
      unfold findOrCreateDocument
      simp only [habs]
      rfl
    rw [hred]
    exact ⟨rfl, by rw [findById_insertDoc, if_pos rfl]⟩

theorem creation_paths_first_version_amended_witness :
    versionInvariant emptyStore ∧
    versionsOf ((getDocumentHandler emptyStore freshConn 5).2).store 5 =
      versionsOf emptyStore 5 ++ [⟨5, 1, Val.str "", 7⟩] :=
  ⟨emptyStore_invariant,
   (creation_paths_first_version_amended emptyStore freshConn 5 emptyStore_invariant rfl).2.1⟩

/-- The inline denial test of the handlers agrees with the four-valued
permission decision: write is allowed exactly for the owner and the edit
collaborator. -/
theorem editDenied_eq_false_iff (doc : Doc) (u : UserId) :
    editDenied doc u = false ↔
      (decidePermission doc u = Decision.owner ∨ decidePermission doc u = Decision.edit) := by
  unfold editDenied decidePermission
  cases how : doc.owner == u with
  | true => simp
  | false =>
    cases hf : doc.collaborators.find? (fun c => c.user == u) with
    | none => simp
    | some c =>
      cases hp : c.permission with
      | view => simp [hp]
      | edit => simp [hp]

/-- C7 counterexample: the edit collaborator (user 4) saves document 0,
owned by user 9 with view collaborator 5 absent and view collaborator 3
present; the handler deletes only the document-level key and the sender's
document-list key; the owner's and the other collaborator's cache entries
are not invalidated. -/
theorem save_cache_invalidation_counterexample :
    wStore.findById 0 = some wDoc ∧
    wDoc.owner = 9 ∧
    editDenied wDoc 4 = false ∧
    (saveDocumentHandler wStore wConnEdit (Val.str "x")).dels =
      [CacheKey.docKey 0, CacheKey.userDocs 4] ∧
    CacheKey.userDocs 9 ∉ (saveDocumentHandler wStore wConnEdit (Val.str "x")).dels ∧
    CacheKey.userDocs 3 ∉ (saveDocumentHandler wStore wConnEdit (Val.str "x")).dels ∧
    CacheKey.docUser 0 9 ∉ (saveDocumentHandler wStore wConnEdit (Val.str "x")).dels := by
  refine ⟨rfl, rfl, by decide, by decide, by decide, by decide, by decide⟩

/-- C7 amended: for every occupied room where the sender is owner or edit
collaborator, save-document persists the payload as both content and
data, raises currentVersion by one, appends the version record with that
number, and deletes exactly the document-level cache key of the room and
the sender's own document-list key; no cache key of the owner (when
different from the sender) or of any other collaborator is deleted. -/
theorem save_document_effects_amended (s : Store) (conn : Conn) (D : DocId) (doc : Doc)
    (data : Val)
    (hinv : versionInvariant s) (hnd : conn.rooms.Nodup) (hD : D ∈ conn.rooms)
    (hdoc : s.findById D = some doc)
    (hperm : decidePermission doc conn.user.id = Decision.owner ∨
             decidePermission doc conn.user.id = Decision.edit) :
    (saveDocumentHandler s conn data).store.findById D =
      some { doc with data := data, content := data,
                      currentVersion := doc.currentVersion + 1 } ∧
    versionsOf (saveDocumentHandler s conn data).store D =
      versionsOf s D ++ [⟨D, doc.currentVersion + 1, jsOr data doc.content, conn.user.id⟩] ∧
    CacheKey.docKey D ∈ (saveDocumentHandler s conn data).dels ∧
    CacheKey.userDocs conn.user.id ∈ (saveDocumentHandler s conn data).dels ∧
    (∀ k ∈ (saveDocumentHandler s conn data).dels,
      (∃ g ∈ conn.rooms, k = CacheKey.docKey g) ∨ k = CacheKey.userDocs conn.user.id) := by
  have hden : editDenied doc conn.user.id = false :=
    (editDenied_eq_false_iff doc conn.user.id).mpr hperm
  obtain ⟨h1, h2, h3, h4⟩ :=
    saveDocumentLoop_at_allowed conn.user data conn.rooms s D doc hinv hnd hD hdoc hden
  exact ⟨h1, h2, h3, h4, saveDocumentLoop_dels conn.user data conn.rooms s⟩

theorem save_document_effects_amended_witness :
    versionInvariant wStore ∧
    versionsOf (saveDocumentHandler wStore wConnEdit (Val.str "x")).store 0 =
      versionsOf wStore 0 ++ [⟨0, wDoc.currentVersion + 1, jsOr (Val.str "x") wDoc.content, 4⟩] :=
  ⟨wStore_invariant,
   (save_document_effects_amended wStore wConnEdit 0 wDoc (Val.str "x") wStore_invariant
     (by decide) (by decide) rfl (Or.inr (by decide))).2.1⟩

/-- C8: the permission decision is a pure function of the document and the
user: it yields owner exactly on identity equality with the document
owner, otherwise the first matching collaborator entry's stored
permission, otherwise no access; the handlers' inline write gate admits
exactly owner and edit; and the store-level checks are functions of the
current stored document alone, so every mutating event that re-reads the
document re-evaluates the decision (nothing is cached on the
connection). -/
theorem permission_decision_spec (doc : Doc) (u : UserId) :
    (decidePermission doc u = Decision.owner ↔ doc.owner = u) ∧
    (doc.owner ≠ u →
      decidePermission doc u =
        (match doc.collaborators.find? (fun c => c.user == u) with
         | some c =>
           (match c.permission with
            | Permission.view => Decision.view
            | Permission.edit => Decision.edit)
         | none => Decision.noAccess)) ∧
    (editDenied doc u = false ↔
      (decidePermission doc u = Decision.owner ∨ decidePermission doc u = Decision.edit)) ∧
    (∀ s s' : Store, ∀ D : DocId, s.findById D = s'.findById D →
      checkDocumentAccess s D u = checkDocumentAccess s' D u ∧
      hasEditPermission s D u = hasEditPermission s' D u) ∧
    (∀ s : Store, ∀ D : DocId, s.findById D = some doc →
      ((checkDocumentAccess s D u).hasAccess = true ↔
        decidePermission doc u ≠ Decision.noAccess) ∧
      (hasEditPermission s D u = true ↔
        (decidePermission doc u = Decision.owner ∨
         decidePermission doc u = Decision.edit))) := by
  refine ⟨?_, ?_, editDenied_eq_false_iff doc u, ?_, ?_⟩
  · unfold decidePermission
    by_cases heq : doc.owner = u
    · rw [if_pos (beq_iff_eq.mpr heq)]
      simp [heq]
    · rw [if_neg (by rw [beq_eq_false_iff_ne.mpr heq]; exact Bool.false_ne_true)]
      cases hf : doc.collaborators.find? (fun c => c.user == u) with
      | none => simp [heq]
      | some c => cases hp : c.permission <;> simp [hp, heq]
  · intro heq
    unfold decidePermission
    rw [if_neg (by rw [beq_eq_false_iff_ne.mpr heq]; exact Bool.false_ne_true)]
  · intro s s' D h
    constructor
    · unfold checkDocumentAccess
      rw [h]
    · unfold hasEditPermission
      rw [h]
  · intro s D hdocD
    constructor
    · unfold checkDocumentAccess decidePermission
      simp only [hdocD]
      by_cases heq : doc.owner = u
      · rw [if_pos (beq_iff_eq.mpr heq), if_pos (beq_iff_eq.mpr heq)]
        simp
      · rw [if_neg (by rw [beq_eq_false_iff_ne.mpr heq]; exact Bool.false_ne_true),
            if_neg (by rw [beq_eq_false_iff_ne.mpr heq]; exact Bool.false_ne_true)]
        cases hf : doc.collaborators.find? (fun c => c.user == u) with
        | none => simp
        | some c => cases hp : c.permission <;> simp [hp]
    · unfold hasEditPermission decidePermission
      simp only [hdocD]
      by_cases heq : doc.owner = u
      · rw [if_pos (beq_iff_eq.mpr heq), if_pos (beq_iff_eq.mpr heq)]
        simp
      · rw [if_neg (by rw [beq_eq_false_iff_ne.mpr heq]; exact Bool.false_ne_true),
            if_neg (by rw [beq_eq_false_iff_ne.mpr heq]; exact Bool.false_ne_true)]
        cases hf : doc.collaborators.find? (fun c => c.user == u) with
        | none => simp
        | some c => cases hp : c.permission <;> simp [hp]

theorem permission_decision_spec_witness :
    wDoc.owner ≠ 3 ∧ decidePermission wDoc 3 = Decision.view :=
  ⟨by decide, (permission_decision_spec wDoc 3).2.1 (by decide)⟩

/-- C9: a connection attempt is rejected, producing no session state at
all, exactly when the extracted token is missing, malformed, expired, or
its embedded subject resolves to no stored user; an accepted connection
starts with an empty room set and carries the resolved user with the
password field stripped. -/
theorem socket_auth_spec (users : List UserRec) (h : Handshake) :
    (establishConnection users h = none ↔ authRejectSpec users h) ∧
    (∀ c : Conn, establishConnection users h = some c →
      c.rooms = [] ∧ c.user.password = none) := by
  constructor
  · unfold establishConnection socketAuthMiddleware authRejectSpec authenticateSocket
    cases het : extractToken h with
    | none => simp
    | some t =>
      cases t with
      | malformed => simp [jwtVerify]
      | expired => simp [jwtVerify]
      | valid subject =>
        simp only [jwtVerify]
        cases hu : findUserById users subject with
        | none => simp
        | some u2 => simp
  · intro c hc
    unfold establishConnection socketAuthMiddleware at hc
    cases het : extractToken h with
    | none => simp only [het] at hc; cases hc
    | some t =>
      simp only [het] at hc
      cases ha : authenticateSocket users (some t) with
      | none => simp only [ha] at hc; cases hc
      | some u2 =>
        simp only [ha] at hc
        cases hc
        refine ⟨rfl, ?_⟩
        unfold authenticateSocket at ha
        cases hv : jwtVerify t with
        | none => simp only [hv] at ha; cases ha
        | some subject =>
          simp only [hv] at ha
          cases hu : findUserById users subject with
          | none => simp only [hu] at ha; cases ha
          | some u3 =>
            simp only [hu] at ha
            cases ha
            rfl

theorem socket_auth_spec_witness :
    establishConnection [⟨7, "alice", "a@x", some "pw"⟩]
        ⟨some (Token.valid 7), none, none⟩ =
      some ⟨⟨7, "alice", "a@x", none⟩, []⟩ ∧
    (⟨⟨7, "alice", "a@x", none⟩, []⟩ : Conn).user.password = none :=
  ⟨rfl,
   ((socket_auth_spec [⟨7, "alice", "a@x", some "pw"⟩]
      ⟨some (Token.valid 7), none, none⟩).2 ⟨⟨7, "alice", "a@x", none⟩, []⟩ rfl).2⟩

/-- C10: the cursor-position handler unconditionally broadcasts
cursor-moved to the named room excluding the sender, carrying the sender
identity, the supplied position and the server timestamp, for every store
and connection: no document lookup, no permission check and no
room-membership check occur, and the store is unchanged. -/
theorem cursor_position_relay (s : Store) (conn : Conn) (documentId : DocId) (position : Val)
    (now : Nat) :
    cursorPositionHandler s conn documentId position now =
      ⟨s, [⟨Dest.roomOthers documentId,
            Payload.cursorMoved conn.user.id conn.user.username position now⟩], []⟩ ∧
    (∀ s2 : Store, (cursorPositionHandler s conn documentId position now).emits =
      (cursorPositionHandler s2 conn documentId position now).emits) :=
  ⟨rfl, fun _ => rfl⟩

end DocSync
